import Mathlib

set_option maxRecDepth 8000

/-!
Verification of `improve_seo.py`: a shallow embedding in Lean 4 of the
SEO-annotation tool (category resolver, document annotator, file processor)
together with proofs and refutations of the specification's claims.

The embedding follows the Python source closely:
  * strings are Lean `String`s (Python `str.lower` is modelled by ASCII
    `Char.toLower`, `in` by substring containment on the character lists);
  * the BeautifulSoup document tree is the inductive `Node` (tag elements
    with an ordered attribute list and child list, plus text nodes);
    `soup.find(tag, attrs={k: v})` is pre-order search `findL`;
  * Python exceptions are `Except String`;
  * the JSON-LD value is an explicit `Json` tree serialised by a model of
    `json.dumps(..., indent=2)`.
-/

/-! ## String utilities -/

/-- Does the character list `n` occur as a leading block of `h`? -/
def matchesAt : List Char → List Char → Bool
  | [], _ => true
  | _ :: _, [] => false
  | c :: cs, d :: ds => c == d && matchesAt cs ds

/-- Does the character list `n` occur contiguously anywhere inside `h`?
Model of Python's `n in h` on strings. -/
def containsSeq (n : List Char) : List Char → Bool
  | [] => matchesAt n []
  | c :: t => matchesAt n (c :: t) || containsSeq n t

/-- Python `needle in hay` for strings. -/
def strContains (hay needle : String) : Bool :=
  containsSeq needle.data hay.data

/-- Python `s.lower()` (ASCII model). -/
def str_lower (s : String) : String :=
  ⟨s.data.map Char.toLower⟩

/-- Python `s.endswith(t)`. -/
def strEndsWith (s t : String) : Bool :=
  matchesAt t.data.reverse s.data.reverse

/-- Substring occurrence: `n` occurs contiguously inside `h`. -/
def SubstrOf (n h : String) : Prop :=
  ∃ l r : List Char, h.data = l ++ n.data ++ r

/-! ## Category resolver (`ALGORITHM_CATEGORIES`, `DEFAULT_CATEGORY`,
`get_category_info`) -/

/-- One value of the `ALGORITHM_CATEGORIES` table: the SEO info returned by
the resolver. -/
structure CategoryInfo where
  keywords : String
  description : String
deriving Repr, DecidableEq

/-- The `ALGORITHM_CATEGORIES` dict of the source, as an ordered association
list (Python dicts preserve insertion order). -/
def ALGORITHM_CATEGORIES : List (String × CategoryInfo) :=
  [ ("sorting",
     ⟨"sorting algorithm, sort, bubble sort, merge sort, quick sort, heap sort, insertion sort, selection sort, radix sort, counting sort",
      "Learn about sorting algorithms and their implementations with interactive visualizations"⟩),
    ("hashing",
     ⟨"hashing algorithm, hash function, cryptographic hash, md5, sha, bcrypt, ripemd, blake",
      "Explore hashing algorithms and their applications in cryptography and data structures"⟩),
    ("distributed",
     ⟨"distributed consensus, consensus algorithm, raft, paxos, epaxos, zab, 2pc, 3pc, bft, vsr",
      "Understand distributed consensus algorithms used in distributed systems and databases"⟩),
    ("garbage",
     ⟨"garbage collection, gc algorithm, mark and sweep, generational gc, reference counting",
      "Learn about garbage collection algorithms used in programming language runtimes"⟩),
    ("page",
     ⟨"page replacement algorithm, fifo, lru, lfu, mru, nru, second chance",
      "Study page replacement algorithms used in operating systems memory management"⟩),
    ("probabilistic",
     ⟨"probabilistic data structure, bloom filter, count-min sketch, hyperloglog, flajolet-martin",
      "Discover probabilistic data structures for approximate computing and big data"⟩),
    ("quantum",
     ⟨"quantum computing, quantum algorithm, shor code, quantum error correction",
      "Explore quantum computing algorithms and error correction techniques"⟩),
    ("cryptography",
     ⟨"cryptography, encryption, rsa, diffie-hellman, elgamal, merkle tree, homomorphic encryption",
      "Learn about cryptographic algorithms and their applications in security"⟩),
    ("machine",
     ⟨"machine learning algorithm, linear regression, logistic regression, decision tree, random forest, svm, knn, naive bayes, clustering, pca",
      "Study machine learning algorithms and their practical applications"⟩),
    ("btree",
     ⟨"b-tree, b+ tree, data structure, tree algorithm, database index",
      "Understand B-tree data structures and their use in database indexing"⟩) ]

/-- The `DEFAULT_CATEGORY` fallback of the source. -/
def DEFAULT_CATEGORY : CategoryInfo :=
  ⟨"algorithm, data structure, computer science, visualization, interactive",
   "Interactive algorithm visualization platform for learning computer science concepts"⟩

/-- Model of `get_category_info` of the source: lower-case the filename, scan the
table in declared order, return the first entry whose key is a substring,
else the default. -/
def get_category_info (filename : String) : CategoryInfo :=
  let filename_lower := str_lower filename
  match ALGORITHM_CATEGORIES.find? (fun e => strContains filename_lower e.1) with
  | some e => e.2
  | none => DEFAULT_CATEGORY

/-! ## JSON values and `json.dumps(..., indent=2)` -/

mutual
/-- JSON values as built by `generate_structured_data` (only strings and
objects occur in the source's structured data). Objects are given by their
own member-list type `JObj` so that all recursion is structural. -/
inductive Json where
  | str : String → Json
  | obj : JObj → Json
/-- Member list of a JSON object, in insertion order. -/
inductive JObj where
  | nil : JObj
  | cons : String → Json → JObj → JObj
end

/-- Build an object member list from a Lean list. -/
def jobjOf : List (String × Json) → JObj
  | [] => .nil
  | (k, v) :: rest => .cons k v (jobjOf rest)

/-- Characters written via their code points so that the serialised JSON
can be constructed without brace or quote literals. -/
def qMark : Char := Char.ofNat 34

def bSlash : Char := Char.ofNat 92

def nlChar : Char := Char.ofNat 10

def lBrace : Char := Char.ofNat 123

def rBrace : Char := Char.ofNat 125

/-- Lower-case hexadecimal digit, as printed by `json.dumps`. -/
def hexDigit (n : Nat) : Char :=
  if n < 10 then Char.ofNat (48 + n) else Char.ofNat (87 + n)

def hex4 (n : Nat) : List Char :=
  [hexDigit (n / 4096 % 16), hexDigit (n / 256 % 16),
   hexDigit (n / 16 % 16), hexDigit (n % 16)]

/-- Escaping of one character inside a JSON string, as performed by
`json.dumps` with its default `ensure_ascii=True`. -/
def escChar (c : Char) : List Char :=
  if c == qMark then [bSlash, qMark]
  else if c == bSlash then [bSlash, bSlash]
  else if c.toNat == 10 then [bSlash, 'n']
  else if c.toNat == 9 then [bSlash, 't']
  else if c.toNat == 13 then [bSlash, 'r']
  else if c.toNat == 8 then [bSlash, 'b']
  else if c.toNat == 12 then [bSlash, 'f']
  else if c.toNat < 32 || c.toNat > 126 then
    if c.toNat < 65536 then bSlash :: 'u' :: hex4 c.toNat
    else
      let n := c.toNat - 65536
      bSlash :: 'u' :: hex4 (55296 + n / 1024) ++ bSlash :: 'u' :: hex4 (56320 + n % 1024)
  else [c]

/-- A JSON string literal with surrounding quotes. -/
def jquote (s : String) : List Char :=
  qMark :: (s.data.map escChar).flatten ++ [qMark]

/-- The members of a JSON object at indentation `ind`, formatted as by
`json.dumps(..., indent=2)`: every member on its own line at `ind` spaces,
members separated by a comma and newline, nested objects opening on the
member's line and closing at the member's indentation. -/
def dumpsKvs (ind : Nat) : JObj → List Char
  | .nil => []
  | .cons k v rest =>
    List.replicate ind ' ' ++ jquote k ++ ':' :: ' ' ::
      (match v with
       | .str s => jquote s
       | .obj .nil => [lBrace, rBrace]
       | .obj kvs =>
           lBrace :: nlChar :: dumpsKvs (ind + 2) kvs ++
             nlChar :: List.replicate ind ' ' ++ [rBrace])
      ++ (match rest with
          | .nil => []
          | .cons _ _ _ => [',', nlChar])
      ++ dumpsKvs ind rest

/-- Model of `json.dumps(j, indent=2)`. -/
def json_dumps_indent2 (j : Json) : String :=
  match j with
  | .str s => ⟨jquote s⟩
  | .obj .nil => ⟨[lBrace, rBrace]⟩
  | .obj kvs => ⟨lBrace :: nlChar :: dumpsKvs 2 kvs ++ [nlChar, rBrace]⟩

/-- Key lookup in a JSON object. -/
def JObj.getKey : JObj → String → Option Json
  | .nil, _ => none
  | .cons k v rest, key => if k == key then some v else JObj.getKey rest key

/-- Key lookup in a JSON value (objects only). -/
def Json.getKey : Json → String → Option Json
  | .str _, _ => none
  | .obj kvs, key => kvs.getKey key

/-- The dict built by `generate_structured_data` in the source. -/
def structured_data_json (title description url : String) : Json :=
  .obj (jobjOf
    [ ("@context", .str ("https://schema.org")),
      ("@type", .str ("Article")),
      ("headline", .str title),
      ("description", .str description),
      ("author", .obj (jobjOf [ ("@type", .str ("Person")),
                                ("name", .str ("Shantanu Kandale")) ])),
      ("publisher", .obj (jobjOf
         [ ("@type", .str ("Organization")),
           ("name", .str ("AlgoViz Hub")),
           ("logo", .obj (jobjOf [ ("@type", .str ("ImageObject")),
                                   ("url", .str ("https://sgkandale.github.io/favicon.ico")) ])) ])),
      ("mainEntityOfPage", .obj (jobjOf
         [ ("@type", .str ("WebPage")),
           ("@id", .str ("https://sgkandale.github.io/" ++ url)) ])) ])

/-- Model of `generate_structured_data` of the source: the structured-data dict
serialised with `json.dumps(..., indent=2)`. -/
def generate_structured_data (title description url : String) : String :=
  json_dumps_indent2 (structured_data_json title description url)

/-! ## The document tree (BeautifulSoup model) -/

mutual
/-- A parsed HTML node: a tag element with its ordered attribute list and
children, or a text node. -/
inductive Node where
  | text : String → Node
  | elem : String → List (String × String) → NodeList → Node
/-- A sequence of sibling nodes; a document is the `NodeList` of the root
nodes of the parsed soup. `NodeList` is its own inductive type (rather
than `List Node`) so that all tree recursion is structural. -/
inductive NodeList where
  | nil : NodeList
  | cons : Node → NodeList → NodeList
end

/-- Build a `NodeList` from a Lean list (used to write documents down). -/
def nodesOf : List Node → NodeList
  | [] => .nil
  | n :: rest => .cons n (nodesOf rest)

/-- Concatenation of sibling sequences. -/
def nlAppend : NodeList → NodeList → NodeList
  | .nil, l2 => l2
  | .cons n l1, l2 => .cons n (nlAppend l1 l2)

/-- Back to a Lean list (used to state order-preservation claims). -/
def toListNL : NodeList → List Node
  | .nil => []
  | .cons n rest => n :: toListNL rest

/-- Attribute lookup on an attribute list (first occurrence). -/
def attrLookup (a : List (String × String)) (k : String) : Option String :=
  (a.find? (fun kv => kv.1 == k)).map (fun kv => kv.2)

/-- The predicate used by `soup.find(tag, attrs={key: val})`: an element
with the given tag name carrying attribute `key` with exact value `val`. -/
def tagAttrP (tag key val : String) : Node → Bool
  | .text _ => false
  | .elem t a _ => t == tag && (attrLookup a key == some val)

/-- The predicate used by `soup.find(tag)` (tag name only). -/
def tagIs (tag : String) : Node → Bool
  | .text _ => false
  | .elem t _ _ => t == tag

/-- Pre-order first match over a forest: `soup.find(...)`. The node itself
is tested before its children; children before later siblings. -/
def findL (P : Node → Bool) : NodeList → Option Node
  | .nil => none
  | .cons (.text s) cs =>
      if P (.text s) then some (.text s) else findL P cs
  | .cons (.elem t a gs) cs =>
      if P (.elem t a gs) then some (.elem t a gs)
      else match findL P gs with
        | some r => some r
        | none => findL P cs

/-- Number of nodes in a forest (the roots included) satisfying `P`. -/
def countL (P : Node → Bool) : NodeList → Nat
  | .nil => 0
  | .cons (.text s) cs => (if P (.text s) then 1 else 0) + countL P cs
  | .cons (.elem t a gs) cs =>
      (if P (.elem t a gs) then 1 else 0) + countL P gs + countL P cs

/-- Concatenated text of a forest, document order: `get_text()`. -/
def getTextL : NodeList → String
  | .nil => ""
  | .cons (.text s) cs => s ++ getTextL cs
  | .cons (.elem _ _ gs) cs => getTextL gs ++ getTextL cs

/-- Text content (`get_text()`) of a single node. -/
def getTextN (n : Node) : String := getTextL (.cons n .nil)

/-- Python's `list.insert(i, x)` (clamps the index to the length). -/
def pyInsert (i : Nat) (x : Node) : NodeList → NodeList
  | .nil => .cons x .nil
  | .cons a as =>
      match i with
      | 0 => .cons x (.cons a as)
      | n + 1 => .cons a (pyInsert n x as)

/-- Replace the children `cs` of the first `head` element (pre-order) by
`f cs`; `none` when the document has no `head` element. Models the
`soup.head.insert(...)` / `soup.head.append(...)` target resolution, which
raises `AttributeError` on a missing `head`. -/
def goInsert (f : NodeList → NodeList) : NodeList → Option NodeList
  | .nil => none
  | .cons (.text s) cs => (goInsert f cs).map (fun cs' => NodeList.cons (.text s) cs')
  | .cons (.elem t a gs) cs =>
      if t == "head" then some (.cons (.elem t a (f gs)) cs)
      else match goInsert f gs with
        | some gs' => some (.cons (.elem t a gs') cs)
        | none => (goInsert f cs).map (fun cs' => NodeList.cons (.elem t a gs) cs')

/-- Add `lang="en"` to the first `html` element (pre-order); `none` when
there is none. Models `soup.html['lang'] = 'en'`. -/
def setFirstHtmlLang : NodeList → Option NodeList
  | .nil => none
  | .cons (.text s) cs =>
      (setFirstHtmlLang cs).map (fun cs' => NodeList.cons (.text s) cs')
  | .cons (.elem t a gs) cs =>
      if t == "html" then some (.cons (.elem t (a ++ [("lang", "en")]) gs) cs)
      else match setFirstHtmlLang gs with
        | some gs' => some (.cons (.elem t a gs') cs)
        | none => (setFirstHtmlLang cs).map (fun cs' => NodeList.cons (.elem t a gs) cs')

/-- Does a node carry the given attribute (`tag.has_attr`)? -/
def hasAttr (n : Node) (k : String) : Bool :=
  match n with
  | .text _ => false
  | .elem _ a _ => (attrLookup a k).isSome

/-! ## The document annotator `improve_seo` -/

/-- A `<meta name=... content=...>` tag as built by `soup.new_tag`. -/
def metaNameTag (nm content : String) : Node :=
  .elem "meta" [("name", nm), ("content", content)] .nil

/-- A `<meta property=... content=...>` tag. -/
def metaPropTag (prop content : String) : Node :=
  .elem "meta" [("property", prop), ("content", content)] .nil

/-- The `<link rel="canonical" href=...>` tag. -/
def canonicalLinkTag (filename : String) : Node :=
  .elem "link" [("rel", "canonical"), ("href", "https://sgkandale.github.io/" ++ filename)] .nil

/-- The `<script type="application/ld+json">` tag with its serialized
structured data as text content (`script_tag.string = structured_data`). -/
def ldJsonScriptTag (content : String) : Node :=
  .elem "script" [("type", "application/ld+json")] (.cons (.text content) .nil)

/-- One guarded insertion of the annotator: if a node matching `P` exists
anywhere in the document, do nothing; otherwise apply the child-list
transformation `f` to the first `head` element, raising (`AttributeError`
on `soup.head` being `None`) if the document has no `head`. -/
def condInsert (P : Node → Bool) (f : NodeList → NodeList) (d : NodeList) :
    Except String NodeList :=
  if (findL P d).isSome then .ok d
  else match goInsert f d with
    | some d' => .ok d'
    | none => .error "AttributeError: NoneType object has no insert"

/-- The `og_tags` list of the source (property, content). -/
def og_tags (page_title : String) (seo_info : CategoryInfo) (filename : String) :
    List (String × String) :=
  [ ("og:title", page_title),
    ("og:description", seo_info.description),
    ("og:type", "article"),
    ("og:url", "https://sgkandale.github.io/" ++ filename),
    ("og:site_name", "AlgoViz Hub") ]

/-- The `twitter_tags` list of the source (name, content). -/
def twitter_tags (page_title : String) (seo_info : CategoryInfo) :
    List (String × String) :=
  [ ("twitter:card", "summary"),
    ("twitter:title", page_title),
    ("twitter:description", seo_info.description),
    ("twitter:site", "@sgkandale") ]

/-- All guarded insertions of `improve_seo`, in source order: description
meta at head position 0, keywords meta at head position 1, the five Open
Graph metas appended, the four Twitter metas appended, the canonical link
appended, the JSON-LD script appended. -/
def annotSteps (page_title : String) (seo_info : CategoryInfo) (filename : String) :
    List ((Node → Bool) × (NodeList → NodeList)) :=
  [ (tagAttrP "meta" "name" "description",
       pyInsert 0 (metaNameTag "description" seo_info.description)),
    (tagAttrP "meta" "name" "keywords",
       pyInsert 1 (metaNameTag "keywords" seo_info.keywords)) ]
  ++ (og_tags page_title seo_info filename).map
       (fun pc => (tagAttrP "meta" "property" pc.1,
                   fun cs => nlAppend cs (.cons (metaPropTag pc.1 pc.2) .nil)))
  ++ (twitter_tags page_title seo_info).map
       (fun pc => (tagAttrP "meta" "name" pc.1,
                   fun cs => nlAppend cs (.cons (metaNameTag pc.1 pc.2) .nil)))
  ++ [ (tagAttrP "link" "rel" "canonical",
         fun cs => nlAppend cs (.cons (canonicalLinkTag filename) .nil)),
       (tagAttrP "script" "type" "application/ld+json",
         fun cs => nlAppend cs (.cons (ldJsonScriptTag
           (generate_structured_data page_title seo_info.description filename)) .nil)) ]

/-- Run the guarded insertions left to right, stopping at the first raised
error. -/
def runSteps : List ((Node → Bool) × (NodeList → NodeList)) → NodeList →
    Except String NodeList
  | [], d => .ok d
  | s :: rest, d =>
      match condInsert s.1 s.2 d with
      | .error e => .error e
      | .ok d' => runSteps rest d'

/-- The final `lang` step of `improve_seo`: find `soup.html` (raising on a
document with no `html` element) and add `lang="en"` when absent. -/
def langStep (d : NodeList) : Except String NodeList :=
  match findL (tagIs "html") d with
  | none => .error "AttributeError: NoneType object has no has_attr"
  | some n =>
      if hasAttr n "lang" then .ok d
      else .ok ((setFirstHtmlLang d).getD d)

/-- The page title extracted by `improve_seo`: text of the first `title`
element, defaulting to the fixed fallback. -/
def pageTitle (d : NodeList) : String :=
  match findL (tagIs "title") d with
  | some t => getTextN t
  | none => "Algorithm Visualization"

/-- Model of `improve_seo` of the source, on the parsed document tree: extract the
page title, resolve the category, perform the guarded head insertions in
source order, then set `lang` on the first `html` element. -/
def improve_seo (html_content : NodeList) (filename : String) :
    Except String NodeList :=
  let page_title := pageTitle html_content
  let seo_info := get_category_info filename
  match runSteps (annotSteps page_title seo_info filename) html_content with
  | .error e => .error e
  | .ok d => langStep d

/-- Does the document have a `head` element? -/
def hasHead (d : NodeList) : Bool :=
  (findL (tagIs "head") d).isSome

/-! ## The file processor `process_html_files` -/

/-- A file of the working directory: its name, its parsed content, and
whether reading it succeeds (permissions, encoding). -/
structure FileEntry where
  name : String
  content : NodeList
  readable : Bool

/-- The file system visible to `process_html_files`: the working directory
listing (in `os.listdir` order) and whether `/tmp/seo_backup` exists and is
writable. -/
structure FSState where
  files : List FileEntry
  backupDirExists : Bool

/-- The per-file pipeline inside the `try` of `process_html_files`:
read the file, write the backup (which fails when the backup directory
is absent), then `improve_seo`. Returns the annotated content to be
written back, or the caught error message. -/
def fileResult (backupOk : Bool) (e : FileEntry) : Except String NodeList :=
  if e.readable then
    if backupOk then improve_seo e.content e.name
    else .error "No such file or directory"
  else .error "Permission denied"

/-- The line printed for one file: success or the caught-and-reported
error with the filename and message. -/
def fileLine (backupOk : Bool) (e : FileEntry) : String :=
  match fileResult backupOk e with
  | .ok _ => "✓ Processed " ++ e.name
  | .error m => "✗ Error processing " ++ e.name ++ ": " ++ m

/-- The backup copy written for one file, when both the read and the
backup write succeed (the backup is written before `improve_seo` runs). -/
def fileBackup (backupOk : Bool) (e : FileEntry) : Option (String × NodeList) :=
  if e.readable && backupOk then some (e.name, e.content) else none

/-- The content of one directory entry after the run: overwritten with the
annotated document only when the whole per-file pipeline succeeded. -/
def fileAfter (backupOk : Bool) (e : FileEntry) : FileEntry :=
  if strEndsWith e.name ".html" then
    match fileResult backupOk e with
    | .ok c => { e with content := c }
    | .error _ => e
  else e

/-- Model of `process_html_files` of the source: select the `.html` entries, print
the start line, process each file independently (every error caught and
reported per file), print the completion line. Returns the final file
system together with the written backups and the console output. -/
def process_html_files (st : FSState) :
    FSState × List (String × NodeList) × List String :=
  let html_files := st.files.filter (fun e => strEndsWith e.name ".html")
  let out :=
    ("Processing " ++ toString html_files.length ++ " HTML files...")
      :: (html_files.map (fileLine st.backupDirExists))
      ++ ["SEO improvement process completed!"]
  let backups := html_files.filterMap (fileBackup st.backupDirExists)
  ({ st with files := st.files.map (fileAfter st.backupDirExists) }, backups, out)

/-! ## Derived predicates and auxiliary definitions used by the claims -/

/-- A node predicate that does not inspect the children of an element
(every selector used by `improve_seo` is of this kind). -/
def ChildBlind (P : Node → Bool) : Prop :=
  ∀ t a gs gs', P (.elem t a gs) = P (.elem t a gs')

/-- A node predicate that rejects every `html` element, whatever its
attributes (every selector used by `improve_seo` is of this kind, since
they all target `meta` / `link` / `script` tags). -/
def NoHtmlMatch (P : Node → Bool) : Prop :=
  ∀ a gs, P (.elem "html" a gs) = false

/-- The thirteen presence checks of `improve_seo`, in source order. This
list is exactly `(annotSteps pt seo f).map Prod.fst` for every title,
category info and filename. -/
def annotPreds : List (Node → Bool) :=
  [ tagAttrP "meta" "name" "description",
    tagAttrP "meta" "name" "keywords",
    tagAttrP "meta" "property" "og:title",
    tagAttrP "meta" "property" "og:description",
    tagAttrP "meta" "property" "og:type",
    tagAttrP "meta" "property" "og:url",
    tagAttrP "meta" "property" "og:site_name",
    tagAttrP "meta" "name" "twitter:card",
    tagAttrP "meta" "name" "twitter:title",
    tagAttrP "meta" "name" "twitter:description",
    tagAttrP "meta" "name" "twitter:site",
    tagAttrP "link" "rel" "canonical",
    tagAttrP "script" "type" "application/ld+json" ]

/-- Do all thirteen presence checks succeed on `d`? -/
def allChecksPresent (d : NodeList) : Bool :=
  annotPreds.all (fun P => (findL P d).isSome)

/-- Does the document have an `html` element? -/
def hasHtml (d : NodeList) : Bool :=
  (findL (tagIs "html") d).isSome

/-- Did the computation succeed? -/
def isOkE (r : Except String NodeList) : Bool :=
  match r with
  | .ok _ => true
  | .error _ => false

/-- The optional `lang` pass applied after the insertions (`b` records
whether `improve_seo` took the branch that writes `lang="en"`). -/
def applyLang (b : Bool) (d : NodeList) : NodeList :=
  if b then (setFirstHtmlLang d).getD d else d

/-- Attributes of the first `html` element of a document. -/
def htmlAttrsOf (d : NodeList) : Option (List (String × String)) :=
  match findL (tagIs "html") d with
  | some (.elem _ a _) => some a
  | _ => none

/-- Tag names of the root nodes of a document. -/
def rootTags : NodeList → List String
  | .nil => []
  | .cons (.elem t _ _) rest => t :: rootTags rest
  | .cons (.text _) rest => "#text" :: rootTags rest

/-! ## Concrete documents used by the claims -/

/-- The parse of `<html><head><title>Merge Sort</title></head><body></body></html>`. -/
def mergeDoc : NodeList := nodesOf
  [ .elem "html" [] (nodesOf
      [ .elem "head" [] (nodesOf [ .elem "title" [] (nodesOf [ .text "Merge Sort" ]) ]),
        .elem "body" [] .nil ]) ]

/-- The annotated output for `mergeDoc` under filename `merge_sort.html`
(note: the resolved category is `DEFAULT_CATEGORY`, since no key of
`ALGORITHM_CATEGORIES` is a substring of "merge_sort.html"). -/
def mergeOut : NodeList := nodesOf
  [ .elem "html" [("lang", "en")] (nodesOf
      [ .elem "head" [] (nodesOf
          [ metaNameTag "description" DEFAULT_CATEGORY.description,
            metaNameTag "keywords" DEFAULT_CATEGORY.keywords,
            .elem "title" [] (nodesOf [ .text "Merge Sort" ]),
            metaPropTag "og:title" "Merge Sort",
            metaPropTag "og:description" DEFAULT_CATEGORY.description,
            metaPropTag "og:type" "article",
            metaPropTag "og:url" "https://sgkandale.github.io/merge_sort.html",
            metaPropTag "og:site_name" "AlgoViz Hub",
            metaNameTag "twitter:card" "summary",
            metaNameTag "twitter:title" "Merge Sort",
            metaNameTag "twitter:description" DEFAULT_CATEGORY.description,
            metaNameTag "twitter:site" "@sgkandale",
            canonicalLinkTag "merge_sort.html",
            ldJsonScriptTag (generate_structured_data "Merge Sort"
              DEFAULT_CATEGORY.description "merge_sort.html") ]),
        .elem "body" [] .nil ]) ]

/-- A document with no `head` element in which every checked tag already
occurs (inside `body`) and the `html` root already has `lang`. -/
def headlessFullDoc : NodeList := nodesOf
  [ .elem "html" [("lang", "en")] (nodesOf
      [ .elem "body" [] (nodesOf
          [ metaNameTag "description" "d",
            metaNameTag "keywords" "k",
            metaPropTag "og:title" "t",
            metaPropTag "og:description" "d",
            metaPropTag "og:type" "article",
            metaPropTag "og:url" "u",
            metaPropTag "og:site_name" "s",
            metaNameTag "twitter:card" "c",
            metaNameTag "twitter:title" "t",
            metaNameTag "twitter:description" "d",
            metaNameTag "twitter:site" "s",
            .elem "link" [("rel", "canonical"), ("href", "h")] .nil,
            .elem "script" [("type", "application/ld+json")]
              (nodesOf [ .text "x" ]) ]) ]) ]

/-- A document with no `head` element and none of the checked tags. -/
def headlessEmptyDoc : NodeList := nodesOf [ .elem "html" [] .nil ]

/-- A document whose only `html` element is not a root node. -/
def nestedHtmlDoc : NodeList := nodesOf
  [ .elem "div" [] (nodesOf
      [ .elem "html" [] (nodesOf
          [ .elem "head" [] (nodesOf [ .elem "title" [] (nodesOf [ .text "T" ]) ]),
            .elem "body" [] .nil ]) ]) ]

/-- The annotated output for `nestedHtmlDoc` under filename `x.html`. -/
def nestedHtmlOut : NodeList := nodesOf
  [ .elem "div" [] (nodesOf
      [ .elem "html" [("lang", "en")] (nodesOf
          [ .elem "head" [] (nodesOf
              [ metaNameTag "description" DEFAULT_CATEGORY.description,
                metaNameTag "keywords" DEFAULT_CATEGORY.keywords,
                .elem "title" [] (nodesOf [ .text "T" ]),
                metaPropTag "og:title" "T",
                metaPropTag "og:description" DEFAULT_CATEGORY.description,
                metaPropTag "og:type" "article",
                metaPropTag "og:url" "https://sgkandale.github.io/x.html",
                metaPropTag "og:site_name" "AlgoViz Hub",
                metaNameTag "twitter:card" "summary",
                metaNameTag "twitter:title" "T",
                metaNameTag "twitter:description" DEFAULT_CATEGORY.description,
                metaNameTag "twitter:site" "@sgkandale",
                canonicalLinkTag "x.html",
                ldJsonScriptTag (generate_structured_data "T"
                  DEFAULT_CATEGORY.description "x.html") ]),
            .elem "body" [] .nil ]) ]) ]

/-- A document whose `body` already holds a description meta while the
`head` is empty; used to exhibit that presence checks search the whole
document. -/
def bodyDescDoc : NodeList := nodesOf
  [ .elem "html" [("lang", "en")] (nodesOf
      [ .elem "head" [] .nil,
        .elem "body" [] (nodesOf [ metaNameTag "description" "preexisting" ]) ]) ]

/-- The annotated output for `bodyDescDoc` under filename `x.html`: the
description insertion is suppressed by the meta inside `body`; everything
else is inserted into the empty `head`. -/
def bodyDescOut : NodeList := nodesOf
  [ .elem "html" [("lang", "en")] (nodesOf
      [ .elem "head" [] (nodesOf
          [ metaNameTag "keywords" DEFAULT_CATEGORY.keywords,
            metaPropTag "og:title" "Algorithm Visualization",
            metaPropTag "og:description" DEFAULT_CATEGORY.description,
            metaPropTag "og:type" "article",
            metaPropTag "og:url" "https://sgkandale.github.io/x.html",
            metaPropTag "og:site_name" "AlgoViz Hub",
            metaNameTag "twitter:card" "summary",
            metaNameTag "twitter:title" "Algorithm Visualization",
            metaNameTag "twitter:description" DEFAULT_CATEGORY.description,
            metaNameTag "twitter:site" "@sgkandale",
            canonicalLinkTag "x.html",
            ldJsonScriptTag (generate_structured_data "Algorithm Visualization"
              DEFAULT_CATEGORY.description "x.html") ]),
        .elem "body" [] (nodesOf [ metaNameTag "description" "preexisting" ]) ]) ]

/-- A well-formed empty page: `html` root, empty `head`, empty `body`. -/
def emptyPageDoc : NodeList := nodesOf
  [ .elem "html" [] (nodesOf [ .elem "head" [] .nil, .elem "body" [] .nil ]) ]

/-- Directory state with one processable page, one page whose annotation
fails (no `head`), and one non-HTML file. -/
def mixedState : FSState :=
  { files := [ ⟨"a.html", emptyPageDoc, true⟩,
               ⟨"b.html", .nil, true⟩,
               ⟨"notes.txt", .nil, true⟩ ],
    backupDirExists := true }

/-! # Theorems -/

/-! ## String lemmas -/

theorem matchesAt_iff (n h : List Char) :
    matchesAt n h = true ↔ ∃ r, h = n ++ r := by
  induction n generalizing h with
  | nil => simp [matchesAt]
  | cons c cs ih =>
    cases h with
    | nil => simp [matchesAt]
    | cons d ds =>
      simp only [matchesAt, Bool.and_eq_true, beq_iff_eq, ih]
      constructor
      · rintro ⟨rfl, r, rfl⟩; exact ⟨r, rfl⟩
      · rintro ⟨r, hr⟩
        injection hr with h1 h2
        exact ⟨h1.symm, r, h2⟩

theorem containsSeq_iff (n h : List Char) :
    containsSeq n h = true ↔ ∃ l r, h = l ++ n ++ r := by
  induction h with
  | nil =>
    simp only [containsSeq, matchesAt_iff]
    constructor
    · rintro ⟨r, hr⟩; exact ⟨[], r, by simpa using hr⟩
    · rintro ⟨l, r, hr⟩
      have := hr.symm
      rcases List.append_eq_nil.mp (List.append_eq_nil.mp this).1 with ⟨h1, h2⟩
      exact ⟨r, by simp [h2, (List.append_eq_nil.mp this).2, h1]⟩
  | cons c t ih =>
    simp only [containsSeq, Bool.or_eq_true, matchesAt_iff, ih]
    constructor
    · rintro (⟨r, hr⟩ | ⟨l, r, hr⟩)
      · exact ⟨[], r, by simpa using hr⟩
      · exact ⟨c :: l, r, by simp [hr]⟩
    · rintro ⟨l, r, hr⟩
      cases l with
      | nil => exact Or.inl ⟨r, by simpa using hr⟩
      | cons x xs =>
        injection hr with h1 h2
        exact Or.inr ⟨xs, r, h2⟩

theorem strContains_iff (hay needle : String) :
    strContains hay needle = true ↔ SubstrOf needle hay := by
  simpa [strContains, SubstrOf] using containsSeq_iff needle.data hay.data

/-- First-match characterisation of `List.find?` by index. -/
theorem find?_first_characterisation {α : Type} (p : α → Bool) (l : List α) :
    (∃ i : Fin l.length, p (l.get i) = true ∧
        (∀ j : Fin l.length, j < i → p (l.get j) = false) ∧
        l.find? p = some (l.get i))
    ∨ ((∀ a ∈ l, p a = false) ∧ l.find? p = none) := by
  induction l with
  | nil => exact Or.inr ⟨by simp, rfl⟩
  | cons x xs ih =>
    by_cases hx : p x = true
    · refine Or.inl ⟨⟨0, by simp⟩, by simpa using hx, ?_, ?_⟩
      · intro j hj
        exact absurd hj (by simp [Fin.lt_def])
      · simp [List.find?, hx]
    · have hx' : p x = false := by simpa using hx
      rcases ih with ⟨i, hpi, hmin, hfind⟩ | ⟨hall, hfind⟩
      · refine Or.inl ⟨i.succ, by simpa using hpi, ?_, ?_⟩
        · intro j hj
          rcases j with ⟨jv, hjv⟩
          cases jv with
          | zero => simpa using hx'
          | succ jv' =>
            have hjlen : jv' < xs.length := by
              simp only [List.length_cons] at hjv; omega
            have hj' : jv' + 1 < (i : Nat) + 1 := by
              simpa [Fin.lt_def] using hj
            have hlt : (⟨jv', hjlen⟩ : Fin xs.length) < i := by
              simp only [Fin.lt_def]; omega
            simpa using hmin ⟨jv', hjlen⟩ hlt
        · simpa [List.find?, hx'] using hfind
      · refine Or.inr ⟨?_, by simpa [List.find?, hx'] using hfind⟩
        intro a ha
        rcases List.mem_cons.mp ha with rfl | ha'
        · exact hx'
        · exact hall a ha'

/-! ## Structural induction over documents -/

/-- Structural induction over a forest of nodes, descending both into
children and into later siblings (the recursion scheme of all the
document-tree functions above). -/
theorem nodeListRec {motive : NodeList → Prop}
    (hnil : motive .nil)
    (htext : ∀ s cs, motive cs → motive (.cons (.text s) cs))
    (helem : ∀ t a gs cs, motive gs → motive cs → motive (.cons (.elem t a gs) cs)) :
    ∀ l : NodeList, motive l
  | .nil => hnil
  | .cons (.text s) cs => htext s cs (nodeListRec hnil htext helem cs)
  | .cons (.elem t a gs) cs =>
      helem t a gs cs (nodeListRec hnil htext helem gs)
        (nodeListRec hnil htext helem cs)

/-! ## Find and count lemmas -/

theorem countL_cons (P : Node → Bool) (n : Node) (l : NodeList) :
    countL P (.cons n l) = countL P (.cons n .nil) + countL P l := by
  cases n <;> simp [countL]

theorem countL_nlAppend (P : Node → Bool) (l1 l2 : NodeList) :
    countL P (nlAppend l1 l2) = countL P l1 + countL P l2 := by
  induction l1 using nodeListRec with
  | hnil => simp [countL, nlAppend]
  | htext s cs ih => simp [countL, nlAppend, ih]; omega
  | helem t a gs cs ih1 ih2 => simp [countL, nlAppend, ih2]; omega

theorem countL_pyInsert (P : Node → Bool) (x : Node) :
    ∀ (i : Nat) (l : NodeList),
      countL P (pyInsert i x l) = countL P (.cons x .nil) + countL P l := by
  intro i l
  induction l using nodeListRec generalizing i with
  | hnil =>
    simp only [pyInsert]
    simp [countL]
  | htext s cs ih =>
    cases i with
    | zero =>
      simp only [pyInsert]
      rw [countL_cons P x (.cons (.text s) cs)]
    | succ m =>
      simp only [pyInsert]
      rw [countL_cons P (.text s) (pyInsert m x cs), ih m,
        countL_cons P (.text s) cs]
      omega
  | helem t a gs cs ihg ihc =>
    cases i with
    | zero =>
      simp only [pyInsert]
      rw [countL_cons P x (.cons (.elem t a gs) cs)]
    | succ m =>
      simp only [pyInsert]
      rw [countL_cons P (.elem t a gs) (pyInsert m x cs), ihc m,
        countL_cons P (.elem t a gs) cs]
      omega

theorem findL_isSome_iff (P : Node → Bool) :
    ∀ d : NodeList, (findL P d).isSome = true ↔ 0 < countL P d := by
  refine nodeListRec ?_ ?_ ?_
  · simp [findL, countL]
  · intro s cs ih
    by_cases hP : P (.text s) <;> simp [findL, countL, hP, ih]
  · intro t a gs cs ihg ihc
    by_cases hP : P (.elem t a gs)
    · simp [findL, countL, hP]
    · simp only [findL, countL, hP, Bool.false_eq_true, if_false]
      cases hfind : findL P gs with
      | some r =>
        have hg : 0 < countL P gs := ihg.mp (by simp [hfind])
        simp only [Option.isSome_some, true_iff]
        omega
      | none =>
        have hg : countL P gs = 0 := by
          by_contra hne
          have : (findL P gs).isSome = true := ihg.mpr (by omega)
          simp [hfind] at this
        simp [ihc, hg]

theorem findL_eq_none_of_countL_zero (P : Node → Bool) (d : NodeList)
    (h : countL P d = 0) : findL P d = none := by
  rcases hf : findL P d with _ | r
  · rfl
  · have : (findL P d).isSome = true := by simp [hf]
    rw [findL_isSome_iff] at this
    omega

theorem countL_pos_of_findL_isSome (P : Node → Bool) (d : NodeList)
    (h : (findL P d).isSome = true) : 0 < countL P d :=
  (findL_isSome_iff P d).mp h

theorem findL_sat (P : Node → Bool) :
    ∀ d n, findL P d = some n → P n = true := by
  refine nodeListRec ?_ ?_ ?_
  · intro n h; simp [findL] at h
  · intro s cs ih n h
    by_cases hP : P (.text s)
    · simp [findL, hP] at h; subst h; exact hP
    · simp [findL, hP] at h; exact ih n h
  · intro t a gs cs ihg ihc n h
    by_cases hP : P (.elem t a gs)
    · simp [findL, hP] at h; subst h; exact hP
    · simp only [findL, hP, Bool.false_eq_true, if_false] at h
      cases hfind : findL P gs with
      | some r => rw [hfind] at h; injection h with h; subst h; exact ihg _ hfind
      | none => rw [hfind] at h; exact ihc n h

theorem findL_nlAppend_none (P : Node → Bool) (l2 : NodeList) :
    ∀ l1, findL P l1 = none → findL P (nlAppend l1 l2) = findL P l2 := by
  refine nodeListRec ?_ ?_ ?_
  · intro _; simp [nlAppend]
  · intro s cs ih h
    by_cases hP : P (.text s)
    · simp [findL, hP] at h
    · simp only [findL, hP, Bool.false_eq_true, if_false] at h
      simp only [nlAppend, findL, hP, Bool.false_eq_true, if_false]
      exact ih h
  · intro t a gs cs ihg ihc h
    by_cases hP : P (.elem t a gs)
    · simp [findL, hP] at h
    · simp only [findL, hP, Bool.false_eq_true, if_false] at h
      cases hfind : findL P gs with
      | some r => rw [hfind] at h; simp at h
      | none =>
        rw [hfind] at h
        simp only [nlAppend, findL, hP, Bool.false_eq_true, if_false, hfind]
        exact ihc h

theorem findL_singleton (P : Node → Bool) (n : Node) (h : P n = true) :
    findL P (.cons n .nil) = some n := by
  cases n <;> simp [findL, h]

/-! ## Lemmas about head insertion (`goInsert`) -/

theorem goInsert_isSome_eq (f : NodeList → NodeList) :
    ∀ d, (goInsert f d).isSome = (findL (tagIs "head") d).isSome := by
  refine nodeListRec ?_ ?_ ?_
  · simp [goInsert, findL]
  · intro s cs ih
    simp [goInsert, findL, tagIs, ih]
  · intro t a gs cs ihg ihc
    by_cases ht : (t == "head") = true
    · simp [goInsert, findL, tagIs, ht]
    · have ht' : (t == "head") = false := by simpa using ht
      simp only [goInsert, findL, tagIs, ht', Bool.false_eq_true, if_false]
      cases hg : goInsert f gs with
      | some gs' =>
        have hs : (findL (tagIs "head") gs).isSome = true := by rw [← ihg, hg]; rfl
        rcases Option.isSome_iff_exists.mp hs with ⟨r, hr⟩
        simp [hr]
      | none =>
        have hs : (findL (tagIs "head") gs).isSome = false := by rw [← ihg, hg]; rfl
        have hnone : findL (tagIs "head") gs = none := by
          cases hfg : findL (tagIs "head") gs
          · rfl
          · rw [hfg] at hs; simp at hs
        simp [hnone, ihc]

theorem goInsert_none_of_no_head (f : NodeList → NodeList) (d : NodeList)
    (h : hasHead d = false) : goInsert f d = none := by
  have := goInsert_isSome_eq f d
  rw [show (findL (tagIs "head") d).isSome = hasHead d from rfl, h] at this
  cases hg : goInsert f d
  · rfl
  · rw [hg] at this; simp at this

theorem goInsert_preserves_head (f : NodeList → NodeList) :
    ∀ d d', goInsert f d = some d' → hasHead d' = true := by
  refine nodeListRec ?_ ?_ ?_
  · intro d' h; simp [goInsert] at h
  · intro s cs ih d' h
    cases hg : goInsert f cs with
    | none => rw [goInsert, hg] at h; simp at h
    | some cs' =>
      rw [goInsert, hg] at h
      simp only [Option.map_some'] at h
      injection h with h
      subst h
      simpa [hasHead, findL, tagIs] using ih cs' hg
  · intro t a gs cs ihg ihc d' h
    by_cases ht : (t == "head") = true
    · rw [goInsert] at h
      simp only [ht, if_true] at h
      injection h with h
      subst h
      simp [hasHead, findL, tagIs, ht]
    · have ht' : (t == "head") = false := by simpa using ht
      rw [goInsert] at h
      simp only [ht', Bool.false_eq_true, if_false] at h
      cases hg : goInsert f gs with
      | some gs' =>
        rw [hg] at h
        injection h with h
        subst h
        have hh := ihg gs' hg
        rcases Option.isSome_iff_exists.mp (by simpa [hasHead] using hh) with ⟨r, hr⟩
        simp [hasHead, findL, tagIs, ht', hr]
      | none =>
        rw [hg] at h
        cases hc : goInsert f cs with
        | none => rw [hc] at h; simp at h
        | some cs' =>
          rw [hc] at h
          simp only [Option.map_some'] at h
          injection h with h
          subst h
          have hgs : hasHead gs = false := by
            have := goInsert_isSome_eq f gs
            rw [hg] at this
            simpa [hasHead] using this.symm
          have hgnone : findL (tagIs "head") gs = none := by
            cases hfg : findL (tagIs "head") gs
            · rfl
            · exfalso; rw [hasHead, hfg] at hgs; simp at hgs
          simpa [hasHead, findL, tagIs, ht', hgnone] using ihc cs' hc

theorem goInsert_count (Q : Node → Bool) (hQ : ChildBlind Q)
    (f : NodeList → NodeList) (k : Nat)
    (hf : ∀ cs, countL Q (f cs) = countL Q cs + k) :
    ∀ d d', goInsert f d = some d' → countL Q d' = countL Q d + k := by
  refine nodeListRec ?_ ?_ ?_
  · intro d' h; simp [goInsert] at h
  · intro s cs ih d' h
    cases hg : goInsert f cs with
    | none => rw [goInsert, hg] at h; simp at h
    | some cs' =>
      rw [goInsert, hg] at h
      simp only [Option.map_some'] at h
      injection h with h
      subst h
      simp only [countL]
      rw [ih cs' hg]
      omega
  · intro t a gs cs ihg ihc d' h
    by_cases ht : (t == "head") = true
    · rw [goInsert] at h
      simp only [ht, if_true] at h
      injection h with h
      subst h
      simp only [countL]
      rw [hf gs, hQ t a (f gs) gs]
      omega
    · have ht' : (t == "head") = false := by simpa using ht
      rw [goInsert] at h
      simp only [ht', Bool.false_eq_true, if_false] at h
      cases hg : goInsert f gs with
      | some gs' =>
        rw [hg] at h
        injection h with h
        subst h
        simp only [countL]
        rw [ihg gs' hg, hQ t a gs' gs]
        omega
      | none =>
        rw [hg] at h
        cases hc : goInsert f cs with
        | none => rw [hc] at h; simp at h
        | some cs' =>
          rw [hc] at h
          simp only [Option.map_some'] at h
          injection h with h
          subst h
          simp only [countL]
          rw [ihc cs' hc]
          omega

theorem goInsert_comp (g f : NodeList → NodeList) :
    ∀ d m, goInsert g d = some m →
      goInsert f m = goInsert (fun cs => f (g cs)) d := by
  refine nodeListRec ?_ ?_ ?_
  · intro m h; simp [goInsert] at h
  · intro s cs ih m h
    cases hg : goInsert g cs with
    | none => rw [goInsert, hg] at h; simp at h
    | some cs' =>
      rw [goInsert, hg] at h
      simp only [Option.map_some'] at h
      injection h with h
      subst h
      rw [goInsert, goInsert, ih cs' hg]
  · intro t a gs cs ihg ihc m h
    by_cases ht : (t == "head") = true
    · rw [goInsert] at h
      simp only [ht, if_true] at h
      injection h with h
      subst h
      rw [goInsert, goInsert]
      simp [ht]
    · have ht' : (t == "head") = false := by simpa using ht
      rw [goInsert] at h
      simp only [ht', Bool.false_eq_true, if_false] at h
      cases hg : goInsert g gs with
      | some gs' =>
        rw [hg] at h
        injection h with h
        subst h
        have hcomp := ihg gs' hg
        have hsome : (goInsert (fun cs => f (g cs)) gs).isSome = true := by
          rw [goInsert_isSome_eq, ← goInsert_isSome_eq g, hg]; rfl
        rcases Option.isSome_iff_exists.mp hsome with ⟨x, hx⟩
        rw [goInsert, goInsert]
        simp only [ht', Bool.false_eq_true, if_false]
        rw [hx] at hcomp
        rw [hcomp, hx]
      | none =>
        rw [hg] at h
        cases hc : goInsert g cs with
        | none => rw [hc] at h; simp at h
        | some cs' =>
          rw [hc] at h
          simp only [Option.map_some'] at h
          injection h with h
          subst h
          have hfgs : goInsert f gs = none := by
            have h1 := goInsert_isSome_eq f gs
            have h2 := goInsert_isSome_eq g gs
            rw [hg] at h2
            rw [← h2] at h1
            cases hk : goInsert f gs
            · rfl
            · rw [hk] at h1; simp at h1
          have hfggs : goInsert (fun cs => f (g cs)) gs = none := by
            have h1 := goInsert_isSome_eq (fun cs => f (g cs)) gs
            have h2 := goInsert_isSome_eq g gs
            rw [hg] at h2
            rw [← h2] at h1
            cases hk : goInsert (fun cs => f (g cs)) gs
            · rfl
            · rw [hk] at h1; simp at h1
          rw [goInsert, goInsert]
          simp only [ht', Bool.false_eq_true, if_false, hfgs, hfggs]
          rw [ihc cs' hc]

theorem goInsert_id :
    ∀ d, goInsert (fun cs => cs) d = some d ∨ goInsert (fun cs => cs) d = none := by
  refine nodeListRec ?_ ?_ ?_
  · exact Or.inr rfl
  · intro s cs ih
    rcases ih with h | h
    · exact Or.inl (by rw [goInsert, h]; rfl)
    · exact Or.inr (by rw [goInsert, h]; rfl)
  · intro t a gs cs ihg ihc
    by_cases ht : (t == "head") = true
    · exact Or.inl (by rw [goInsert]; simp [ht])
    · have ht' : (t == "head") = false := by simpa using ht
      rcases ihg with hg | hg
      · exact Or.inl (by rw [goInsert]; simp [ht', hg])
      · rcases ihc with hc | hc
        · exact Or.inl (by rw [goInsert]; simp [ht', hg, hc])
        · exact Or.inr (by rw [goInsert]; simp [ht', hg, hc])

theorem goInsert_id_getD (d : NodeList) :
    (goInsert (fun cs => cs) d).getD d = d := by
  rcases goInsert_id d with h | h <;> rw [h] <;> rfl

theorem goInsert_find_new (P : Node → Bool) (hP : ChildBlind P) (n : Node)
    (hn : P n = true) :
    ∀ d d', countL P d = 0 →
      goInsert (fun cs => nlAppend cs (.cons n .nil)) d = some d' →
      findL P d' = some n := by
  refine nodeListRec ?_ ?_ ?_
  · intro d' _ h; simp [goInsert] at h
  · intro s cs ih d' hz h
    have hPs : P (.text s) = false := by
      by_contra hc
      rw [countL] at hz
      simp only [eq_true_of_ne_false hc, if_true] at hz
      omega
    have hcs : countL P cs = 0 := by
      rw [countL] at hz
      omega
    cases hg : goInsert (fun cs => nlAppend cs (.cons n .nil)) cs with
    | none => rw [goInsert, hg] at h; simp at h
    | some cs' =>
      rw [goInsert, hg] at h
      simp only [Option.map_some'] at h
      injection h with h
      subst h
      rw [findL]
      simp only [hPs, Bool.false_eq_true, if_false]
      exact ih cs' hcs hg
  · intro t a gs cs ihg ihc d' hz h
    have hPe : P (.elem t a gs) = false := by
      by_contra hc
      rw [countL] at hz
      simp only [eq_true_of_ne_false hc, if_true] at hz
      omega
    have hgs : countL P gs = 0 := by rw [countL] at hz; omega
    have hcs : countL P cs = 0 := by rw [countL] at hz; omega
    by_cases ht : (t == "head") = true
    · rw [goInsert] at h
      simp only [ht, if_true] at h
      injection h with h
      subst h
      rw [findL]
      have hPe' : P (.elem t a (nlAppend gs (.cons n .nil))) = false := by
        rw [hP t a (nlAppend gs (.cons n .nil)) gs]; exact hPe
      simp only [hPe', Bool.false_eq_true, if_false]
      rw [findL_nlAppend_none P (.cons n .nil) gs
          (findL_eq_none_of_countL_zero P gs hgs),
        findL_singleton P n hn]
    · have ht' : (t == "head") = false := by simpa using ht
      rw [goInsert] at h
      simp only [ht', Bool.false_eq_true, if_false] at h
      cases hg : goInsert (fun cs => nlAppend cs (.cons n .nil)) gs with
      | some gs' =>
        rw [hg] at h
        injection h with h
        subst h
        rw [findL]
        have hPe' : P (.elem t a gs') = false := by
          rw [hP t a gs' gs]; exact hPe
        simp only [hPe', Bool.false_eq_true, if_false]
        rw [ihg gs' hgs hg]
      | none =>
        rw [hg] at h
        cases hc : goInsert (fun cs => nlAppend cs (.cons n .nil)) cs with
        | none => rw [hc] at h; simp at h
        | some cs' =>
          rw [hc] at h
          simp only [Option.map_some'] at h
          injection h with h
          subst h
          rw [findL]
          simp only [hPe, Bool.false_eq_true, if_false,
            findL_eq_none_of_countL_zero P gs hgs]
          exact ihc cs' hcs hc

/-! ## Lemmas about the `lang` pass -/

theorem attrLookup_append_lang (a : List (String × String)) :
    (attrLookup (a ++ [("lang", "en")]) "lang").isSome = true := by
  induction a with
  | nil => rfl
  | cons kv rest ih =>
    by_cases hk : (kv.1 == "lang") = true
    · simp [attrLookup, List.find?, hk]
    · have hk' : (kv.1 == "lang") = false := by simpa using hk
      simp only [attrLookup, List.find?, hk'] at ih ⊢
      exact ih

theorem setFirst_isSome_eq :
    ∀ d, (setFirstHtmlLang d).isSome = (findL (tagIs "html") d).isSome := by
  refine nodeListRec ?_ ?_ ?_
  · simp [setFirstHtmlLang, findL]
  · intro s cs ih
    simp [setFirstHtmlLang, findL, tagIs, ih]
  · intro t a gs cs ihg ihc
    by_cases ht : (t == "html") = true
    · simp [setFirstHtmlLang, findL, tagIs, ht]
    · have ht' : (t == "html") = false := by simpa using ht
      simp only [setFirstHtmlLang, findL, tagIs, ht', Bool.false_eq_true, if_false]
      cases hg : setFirstHtmlLang gs with
      | some gs' =>
        have hs : (findL (tagIs "html") gs).isSome = true := by rw [← ihg, hg]; rfl
        rcases Option.isSome_iff_exists.mp hs with ⟨r, hr⟩
        simp [hr]
      | none =>
        have hs : (findL (tagIs "html") gs).isSome = false := by rw [← ihg, hg]; rfl
        have hnone : findL (tagIs "html") gs = none := by
          cases hfg : findL (tagIs "html") gs
          · rfl
          · rw [hfg] at hs; simp at hs
        simp [hnone, ihc]

theorem setFirst_count (Q : Node → Bool) (hQb : ChildBlind Q)
    (hQh : NoHtmlMatch Q) :
    ∀ d d', setFirstHtmlLang d = some d' → countL Q d' = countL Q d := by
  refine nodeListRec ?_ ?_ ?_
  · intro d' h; simp [setFirstHtmlLang] at h
  · intro s cs ih d' h
    cases hg : setFirstHtmlLang cs with
    | none => rw [setFirstHtmlLang, hg] at h; simp at h
    | some cs' =>
      rw [setFirstHtmlLang, hg] at h
      simp only [Option.map_some'] at h
      injection h with h
      subst h
      simp only [countL]
      rw [ih cs' hg]
  · intro t a gs cs ihg ihc d' h
    by_cases ht : (t == "html") = true
    · have hth : t = "html" := by simpa using ht
      subst hth
      rw [setFirstHtmlLang] at h
      simp only [beq_self_eq_true, if_true] at h
      injection h with h
      subst h
      simp only [countL]
      rw [hQh (a ++ [("lang", "en")]) gs, hQh a gs]
    · have ht' : (t == "html") = false := by simpa using ht
      rw [setFirstHtmlLang] at h
      simp only [ht', Bool.false_eq_true, if_false] at h
      cases hg : setFirstHtmlLang gs with
      | some gs' =>
        rw [hg] at h
        injection h with h
        subst h
        simp only [countL]
        rw [ihg gs' hg, hQb t a gs' gs]
      | none =>
        rw [hg] at h
        cases hc : setFirstHtmlLang cs with
        | none => rw [hc] at h; simp at h
        | some cs' =>
          rw [hc] at h
          simp only [Option.map_some'] at h
          injection h with h
          subst h
          simp only [countL]
          rw [ihc cs' hc]

theorem setFirst_found :
    ∀ d d', setFirstHtmlLang d = some d' →
      ∃ a gs, findL (tagIs "html") d' = some (.elem "html" (a ++ [("lang", "en")]) gs) := by
  refine nodeListRec ?_ ?_ ?_
  · intro d' h; simp [setFirstHtmlLang] at h
  · intro s cs ih d' h
    cases hg : setFirstHtmlLang cs with
    | none => rw [setFirstHtmlLang, hg] at h; simp at h
    | some cs' =>
      rw [setFirstHtmlLang, hg] at h
      simp only [Option.map_some'] at h
      injection h with h
      subst h
      rcases ih cs' hg with ⟨a, gs, hfound⟩
      exact ⟨a, gs, by simpa [findL, tagIs] using hfound⟩
  · intro t a gs cs ihg ihc d' h
    by_cases ht : (t == "html") = true
    · have hth : t = "html" := by simpa using ht
      subst hth
      rw [setFirstHtmlLang] at h
      simp only [beq_self_eq_true, if_true] at h
      injection h with h
      subst h
      exact ⟨a, gs, by simp [findL, tagIs]⟩
    · have ht' : (t == "html") = false := by simpa using ht
      rw [setFirstHtmlLang] at h
      simp only [ht', Bool.false_eq_true, if_false] at h
      cases hg : setFirstHtmlLang gs with
      | some gs' =>
        rw [hg] at h
        injection h with h
        subst h
        rcases ihg gs' hg with ⟨a', gs2, hfound⟩
        refine ⟨a', gs2, ?_⟩
        simp only [findL, tagIs, ht', Bool.false_eq_true, if_false, hfound]
      | none =>
        rw [hg] at h
        cases hc : setFirstHtmlLang cs with
        | none => rw [hc] at h; simp at h
        | some cs' =>
          rw [hc] at h
          simp only [Option.map_some'] at h
          injection h with h
          subst h
          rcases ihc cs' hc with ⟨a', gs2, hfound⟩
          refine ⟨a', gs2, ?_⟩
          have hgnone : findL (tagIs "html") gs = none := by
            have h1 := setFirst_isSome_eq gs
            rw [hg] at h1
            cases hk : findL (tagIs "html") gs
            · rfl
            · rw [hk] at h1; simp at h1
          simp only [findL, tagIs, ht', Bool.false_eq_true, if_false, hgnone, hfound]

theorem setFirst_find_result (Q : Node → Bool) (hQb : ChildBlind Q)
    (hQh : NoHtmlMatch Q) :
    ∀ d d' n, setFirstHtmlLang d = some d' → findL Q d = some n →
      countL (tagIs "html") (.cons n .nil) = 0 → findL Q d' = some n := by
  refine nodeListRec ?_ ?_ ?_
  · intro d' n h; simp [setFirstHtmlLang] at h
  · intro s cs ih d' n h hf hno
    cases hg : setFirstHtmlLang cs with
    | none => rw [setFirstHtmlLang, hg] at h; simp at h
    | some cs' =>
      rw [setFirstHtmlLang, hg] at h
      simp only [Option.map_some'] at h
      injection h with h
      subst h
      by_cases hQ : Q (.text s) = true
      · rw [findL] at hf
        simp only [hQ, if_true] at hf
        rw [findL]
        simp only [hQ, if_true]
        exact hf
      · have hQ' : Q (.text s) = false := by simpa using hQ
        rw [findL] at hf
        simp only [hQ', Bool.false_eq_true, if_false] at hf
        rw [findL]
        simp only [hQ', Bool.false_eq_true, if_false]
        exact ih cs' n hg hf hno
  · intro t a gs cs ihg ihc d' n h hf hno
    by_cases hQ : Q (.elem t a gs) = true
    · rw [findL] at hf
      simp only [hQ, if_true] at hf
      injection hf with hf
      subst hf
      have hnotHtml : (tagIs "html" (Node.elem t a gs)) = false := by
        rw [countL] at hno
        by_contra hcon
        simp only [eq_true_of_ne_false hcon, if_true] at hno
        omega
      have hgsNo : countL (tagIs "html") gs = 0 := by
        rw [countL] at hno; omega
      have ht' : (t == "html") = false := by simpa [tagIs] using hnotHtml
      rw [setFirstHtmlLang] at h
      simp only [ht', Bool.false_eq_true, if_false] at h
      have hgnone : setFirstHtmlLang gs = none := by
        have h1 := setFirst_isSome_eq gs
        rw [findL_eq_none_of_countL_zero (tagIs "html") gs hgsNo] at h1
        cases hk : setFirstHtmlLang gs
        · rfl
        · rw [hk] at h1; simp at h1
      rw [hgnone] at h
      cases hc : setFirstHtmlLang cs with
      | none => rw [hc] at h; simp at h
      | some cs' =>
        rw [hc] at h
        simp only [Option.map_some'] at h
        injection h with h
        subst h
        rw [findL]
        simp only [hQ, if_true]
    · have hQ' : Q (.elem t a gs) = false := by simpa using hQ
      rw [findL] at hf
      simp only [hQ', Bool.false_eq_true, if_false] at hf
      by_cases ht : (t == "html") = true
      · have hth : t = "html" := by simpa using ht
        subst hth
        rw [setFirstHtmlLang] at h
        simp only [beq_self_eq_true, if_true] at h
        injection h with h
        subst h
        rw [findL]
        have hQ2 : Q (.elem "html" (a ++ [("lang", "en")]) gs) = false := hQh _ gs
        simp only [hQ2, Bool.false_eq_true, if_false]
        exact hf
      · have ht' : (t == "html") = false := by simpa using ht
        rw [setFirstHtmlLang] at h
        simp only [ht', Bool.false_eq_true, if_false] at h
        cases hg : setFirstHtmlLang gs with
        | some gs' =>
          rw [hg] at h
          injection h with h
          subst h
          rw [findL]
          have hQ2 : Q (.elem t a gs') = false := by rw [hQb t a gs' gs]; exact hQ'
          simp only [hQ2, Bool.false_eq_true, if_false]
          cases hfg : findL Q gs with
          | some r =>
            rw [hfg] at hf
            injection hf with hf
            subst hf
            rw [ihg gs' r hg hfg hno]
          | none =>
            rw [hfg] at hf
            have : countL Q gs' = 0 := by
              rw [setFirst_count Q hQb hQh gs gs' hg]
              by_contra hcon
              have := (findL_isSome_iff Q gs).mpr (by omega)
              rw [hfg] at this; simp at this
            rw [findL_eq_none_of_countL_zero Q gs' this]
            exact hf
        | none =>
          rw [hg] at h
          cases hc : setFirstHtmlLang cs with
          | none => rw [hc] at h; simp at h
          | some cs' =>
            rw [hc] at h
            simp only [Option.map_some'] at h
            injection h with h
            subst h
            rw [findL]
            simp only [hQ', Bool.false_eq_true, if_false]
            cases hfg : findL Q gs with
            | some r =>
              rw [hfg] at hf
              injection hf with hf
              subst hf
              rfl
            | none =>
              rw [hfg] at hf
              exact ihc cs' n hc hf hno

theorem langStep_ok_cases (d d' : NodeList) (h : langStep d = .ok d') :
    (∃ n, findL (tagIs "html") d = some n ∧ hasAttr n "lang" = true ∧ d' = d) ∨
    (∃ n, findL (tagIs "html") d = some n ∧ hasAttr n "lang" = false ∧
        d' = (setFirstHtmlLang d).getD d) := by
  rw [langStep] at h
  cases hf : findL (tagIs "html") d with
  | none => rw [hf] at h; simp at h
  | some n =>
    rw [hf] at h
    by_cases hl : hasAttr n "lang" = true
    · simp only [hl, if_true] at h
      injection h with h
      exact Or.inl ⟨n, rfl, hl, h.symm⟩
    · have hl' : hasAttr n "lang" = false := by simpa using hl
      simp only [hl', Bool.false_eq_true, if_false] at h
      injection h with h
      exact Or.inr ⟨n, rfl, hl', h.symm⟩

theorem langStep_count (Q : Node → Bool) (hQb : ChildBlind Q)
    (hQh : NoHtmlMatch Q) (d d' : NodeList) (h : langStep d = .ok d') :
    countL Q d' = countL Q d := by
  rcases langStep_ok_cases d d' h with ⟨n, _, _, rfl⟩ | ⟨n, hf, _, hd⟩
  · rfl
  · have hsome : (setFirstHtmlLang d).isSome = true := by
      rw [setFirst_isSome_eq, hf]; rfl
    rcases Option.isSome_iff_exists.mp hsome with ⟨x, hx⟩
    rw [hd, hx]
    exact setFirst_count Q hQb hQh d x hx

theorem langStep_find_result (Q : Node → Bool) (hQb : ChildBlind Q)
    (hQh : NoHtmlMatch Q) (d d' : NodeList) (n : Node) (h : langStep d = .ok d')
    (hf : findL Q d = some n)
    (hno : countL (tagIs "html") (.cons n .nil) = 0) :
    findL Q d' = some n := by
  rcases langStep_ok_cases d d' h with ⟨m, _, _, rfl⟩ | ⟨m, hfm, _, hd⟩
  · exact hf
  · have hsome : (setFirstHtmlLang d).isSome = true := by
      rw [setFirst_isSome_eq, hfm]; rfl
    rcases Option.isSome_iff_exists.mp hsome with ⟨x, hx⟩
    rw [hd, hx]
    exact setFirst_find_result Q hQb hQh d x n hx hf hno

theorem langStep_establishes (d d' : NodeList) (h : langStep d = .ok d') :
    ∃ a gs, findL (tagIs "html") d' = some (.elem "html" a gs) ∧
      (attrLookup a "lang").isSome = true := by
  rcases langStep_ok_cases d d' h with ⟨n, hf, hl, rfl⟩ | ⟨n, hf, _, hd⟩
  · have hsat := findL_sat (tagIs "html") d' n hf
    cases n with
    | text s => simp [tagIs] at hsat
    | elem t a gs =>
      have hth : t = "html" := by simpa [tagIs] using hsat
      subst hth
      exact ⟨a, gs, hf, by simpa [hasAttr] using hl⟩
  · have hsome : (setFirstHtmlLang d).isSome = true := by
      rw [setFirst_isSome_eq, hf]; rfl
    rcases Option.isSome_iff_exists.mp hsome with ⟨x, hx⟩
    rw [hd, hx]
    rcases setFirst_found d x hx with ⟨a, gs, hfound⟩
    exact ⟨a ++ [("lang", "en")], gs, hfound, attrLookup_append_lang a⟩

theorem langStep_of_found (d : NodeList) (t : String) (a : List (String × String))
    (gs : NodeList) (hf : findL (tagIs "html") d = some (.elem t a gs))
    (hl : (attrLookup a "lang").isSome = true) : langStep d = .ok d := by
  rw [langStep, hf]
  simp [hasAttr, hl]

/-! ## Lemmas about the guarded-insertion pipeline -/

theorem condInsert_ok_cases (P : Node → Bool) (f : NodeList → NodeList)
    (d d' : NodeList) (h : condInsert P f d = .ok d') :
    ((findL P d).isSome = true ∧ d' = d) ∨
    (findL P d = none ∧ goInsert f d = some d') := by
  rw [condInsert] at h
  by_cases hf : (findL P d).isSome = true
  · simp only [hf, if_true] at h
    injection h with h
    exact Or.inl ⟨hf, h.symm⟩
  · have hf' : (findL P d).isSome = false := by simpa using hf
    have hfn : findL P d = none := by
      cases hk : findL P d
      · rfl
      · rw [hk] at hf'; simp at hf'
    simp only [hf', Bool.false_eq_true, if_false] at h
    cases hg : goInsert f d with
    | none => rw [hg] at h; simp at h
    | some m =>
      rw [hg] at h
      injection h with h
      exact Or.inr ⟨hfn, by rw [h]⟩

theorem runSteps_skip :
    ∀ (l : List ((Node → Bool) × (NodeList → NodeList))) (d : NodeList),
      (∀ s ∈ l, (findL s.1 d).isSome = true) → runSteps l d = .ok d := by
  intro l
  induction l with
  | nil => intro d _; rfl
  | cons s rest ih =>
    intro d hall
    have hs := hall s (List.mem_cons_self s rest)
    rw [runSteps, condInsert]
    simp only [hs, if_true]
    exact ih d (fun s' hs' => hall s' (List.mem_cons_of_mem s hs'))

theorem runSteps_count_mono (Q : Node → Bool) (hQb : ChildBlind Q) :
    ∀ (l : List ((Node → Bool) × (NodeList → NodeList))) (d d' : NodeList),
      (∀ s ∈ l, ∃ k, ∀ cs, countL Q (s.2 cs) = countL Q cs + k) →
      runSteps l d = .ok d' → countL Q d ≤ countL Q d' := by
  intro l
  induction l with
  | nil =>
    intro d d' _ h
    injection h with h
    rw [h]
  | cons s rest ih =>
    intro d d' hadd h
    rw [runSteps] at h
    cases hc : condInsert s.1 s.2 d with
    | error e => rw [hc] at h; simp at h
    | ok d1 =>
      rw [hc] at h
      have hrest := ih d1 d' (fun s' hs' => hadd s' (List.mem_cons_of_mem s hs')) h
      rcases condInsert_ok_cases s.1 s.2 d d1 hc with ⟨_, rfl⟩ | ⟨_, hins⟩
      · exact hrest
      · rcases hadd s (List.mem_cons_self s rest) with ⟨k, hk⟩
        have := goInsert_count Q hQb s.2 k hk d d1 hins
        omega

theorem runSteps_estab :
    ∀ (l : List ((Node → Bool) × (NodeList → NodeList))) (d d' : NodeList),
      (∀ s ∈ l, ChildBlind s.1) →
      (∀ s ∈ l, ∃ k, 0 < k ∧ ∀ cs, countL s.1 (s.2 cs) = countL s.1 cs + k) →
      (∀ s ∈ l, ∀ s' ∈ l, ∃ k, ∀ cs, countL s'.1 (s.2 cs) = countL s'.1 cs + k) →
      runSteps l d = .ok d' → ∀ s ∈ l, 0 < countL s.1 d' := by
  intro l
  induction l with
  | nil => intro d d' _ _ _ _ s hs; simp at hs
  | cons s0 rest ih =>
    intro d d' hblind hself hcross h s hs
    rw [runSteps] at h
    cases hc : condInsert s0.1 s0.2 d with
    | error e => rw [hc] at h; simp at h
    | ok d1 =>
      rw [hc] at h
      rcases List.mem_cons.mp hs with rfl | hmem
      · have h1 : 0 < countL s.1 d1 := by
          rcases condInsert_ok_cases s.1 s.2 d d1 hc with ⟨hf, rfl⟩ | ⟨_, hins⟩
          · exact countL_pos_of_findL_isSome _ _ hf
          · rcases hself s (List.mem_cons_self s rest) with ⟨k, hkpos, hk⟩
            have := goInsert_count s.1 (hblind s (List.mem_cons_self s rest))
              s.2 k hk d d1 hins
            omega
        have hmono := runSteps_count_mono s.1
          (hblind s (List.mem_cons_self s rest)) rest d1 d'
          (fun s' hs' => hcross s' (List.mem_cons_of_mem s hs')
            s (List.mem_cons_self s rest)) h
        omega
      · exact ih d1 d'
          (fun s' hs' => hblind s' (List.mem_cons_of_mem s0 hs'))
          (fun s' hs' => hself s' (List.mem_cons_of_mem s0 hs'))
          (fun s' hs' s'' hs'' => hcross s' (List.mem_cons_of_mem s0 hs')
            s'' (List.mem_cons_of_mem s0 hs''))
          h s hmem

theorem runSteps_count_exact (P : Node → Bool) (hPb : ChildBlind P) :
    ∀ (l : List ((Node → Bool) × (NodeList → NodeList))) (d d' : NodeList),
      0 < countL P d →
      (∀ s ∈ l, (∀ cs, countL P (s.2 cs) = countL P cs) ∨ s.1 = P) →
      runSteps l d = .ok d' → countL P d' = countL P d := by
  intro l
  induction l with
  | nil =>
    intro d d' _ _ h
    injection h with h
    rw [h]
  | cons s rest ih =>
    intro d d' hpos hns h
    rw [runSteps] at h
    cases hc : condInsert s.1 s.2 d with
    | error e => rw [hc] at h; simp at h
    | ok d1 =>
      rw [hc] at h
      have h1 : countL P d1 = countL P d := by
        rcases condInsert_ok_cases s.1 s.2 d d1 hc with ⟨_, rfl⟩ | ⟨hnone, hins⟩
        · rfl
        · rcases hns s (List.mem_cons_self s rest) with hneutral | hsP
          · exact goInsert_count P hPb s.2 0
              (fun cs => by rw [hneutral cs]; omega) d d1 hins
          · exfalso
            rw [hsP] at hnone
            have := (findL_isSome_iff P d).mpr hpos
            rw [hnone] at this
            simp at this
      have := ih d1 d' (by omega)
        (fun s' hs' => hns s' (List.mem_cons_of_mem s hs')) h
      omega

theorem runSteps_count_neutral (P : Node → Bool) (hPb : ChildBlind P) :
    ∀ (l : List ((Node → Bool) × (NodeList → NodeList))) (d d' : NodeList),
      (∀ s ∈ l, ∀ cs, countL P (s.2 cs) = countL P cs) →
      runSteps l d = .ok d' → countL P d' = countL P d := by
  intro l
  induction l with
  | nil =>
    intro d d' _ h
    injection h with h
    rw [h]
  | cons s rest ih =>
    intro d d' hns h
    rw [runSteps] at h
    cases hc : condInsert s.1 s.2 d with
    | error e => rw [hc] at h; simp at h
    | ok d1 =>
      rw [hc] at h
      have h1 : countL P d1 = countL P d := by
        rcases condInsert_ok_cases s.1 s.2 d d1 hc with ⟨_, rfl⟩ | ⟨_, hins⟩
        · rfl
        · exact goInsert_count P hPb s.2 0
            (fun cs => by rw [hns s (List.mem_cons_self s rest) cs]; omega) d d1 hins
      have := ih d1 d' (fun s' hs' => hns s' (List.mem_cons_of_mem s hs')) h
      omega

theorem runSteps_headless :
    ∀ (l : List ((Node → Bool) × (NodeList → NodeList))) (d d' : NodeList),
      hasHead d = false → runSteps l d = .ok d' →
      d' = d ∧ ∀ s ∈ l, (findL s.1 d).isSome = true := by
  intro l
  induction l with
  | nil =>
    intro d d' _ h
    injection h with h
    exact ⟨h.symm, by simp⟩
  | cons s rest ih =>
    intro d d' hnh h
    rw [runSteps] at h
    cases hc : condInsert s.1 s.2 d with
    | error e => rw [hc] at h; simp at h
    | ok d1 =>
      rw [hc] at h
      rcases condInsert_ok_cases s.1 s.2 d d1 hc with ⟨hf, rfl⟩ | ⟨_, hins⟩
      · rcases ih _ d' hnh h with ⟨hd, hall⟩
        refine ⟨hd, ?_⟩
        intro s' hs'
        rcases List.mem_cons.mp hs' with rfl | hmem
        · exact hf
        · exact hall s' hmem
      · exfalso
        rw [goInsert_none_of_no_head s.2 d hnh] at hins
        exact Option.noConfusion hins

theorem runSteps_append :
    ∀ (l1 l2 : List ((Node → Bool) × (NodeList → NodeList))) (d : NodeList),
      runSteps (l1 ++ l2) d =
        match runSteps l1 d with
        | .ok m => runSteps l2 m
        | .error e => .error e := by
  intro l1
  induction l1 with
  | nil => intro l2 d; rfl
  | cons s rest ih =>
    intro l2 d
    rw [List.cons_append, runSteps, runSteps]
    cases hc : condInsert s.1 s.2 d with
    | error e => rfl
    | ok d1 => exact ih l2 d1

theorem runSteps_shape :
    ∀ (l : List ((Node → Bool) × (NodeList → NodeList))) (d d' : NodeList),
      (∀ s ∈ l, ∀ cs, (toListNL cs).Sublist (toListNL (s.2 cs))) →
      runSteps l d = .ok d' →
      ∃ g : NodeList → NodeList,
        (∀ cs, (toListNL cs).Sublist (toListNL (g cs))) ∧
        d' = (goInsert g d).getD d := by
  intro l
  induction l with
  | nil =>
    intro d d' _ h
    injection h with h
    exact ⟨fun cs => cs, fun cs => List.Sublist.refl _,
      by rw [← h, goInsert_id_getD]⟩
  | cons s rest ih =>
    intro d d' hsub h
    rw [runSteps] at h
    cases hc : condInsert s.1 s.2 d with
    | error e => rw [hc] at h; simp at h
    | ok d1 =>
      rw [hc] at h
      rcases condInsert_ok_cases s.1 s.2 d d1 hc with ⟨_, rfl⟩ | ⟨_, hins⟩
      · exact ih _ d' (fun s' hs' => hsub s' (List.mem_cons_of_mem s hs')) h
      · rcases ih d1 d' (fun s' hs' => hsub s' (List.mem_cons_of_mem s hs')) h
          with ⟨g1, hg1sub, hg1⟩
        refine ⟨fun cs => g1 (s.2 cs), ?_, ?_⟩
        · intro cs
          exact (hsub s (List.mem_cons_self s rest) cs).trans (hg1sub (s.2 cs))
        · have hcomp := goInsert_comp s.2 g1 d d1 hins
          have hsome : (goInsert g1 d1).isSome = true := by
            rw [goInsert_isSome_eq]
            exact goInsert_preserves_head s.2 d d1 hins
          rcases Option.isSome_iff_exists.mp hsome with ⟨m, hm⟩
          rw [hm] at hcomp
          rw [hg1, hm, ← hcomp]
          rfl

/-! ## Facts about the annotation step table -/

theorem annotSteps_map_fst (pt : String) (seo : CategoryInfo) (f : String) :
    (annotSteps pt seo f).map Prod.fst = annotPreds := rfl

theorem annotPreds_blind : ∀ P ∈ annotPreds, ChildBlind P := by
  intro P hP
  simp only [annotPreds, List.mem_cons, List.not_mem_nil, or_false] at hP
  rcases hP with rfl | rfl | rfl | rfl | rfl | rfl | rfl | rfl | rfl | rfl | rfl | rfl | rfl <;>
    exact fun t a gs gs' => rfl

theorem annotPreds_nohtml : ∀ P ∈ annotPreds, NoHtmlMatch P := by
  intro P hP
  simp only [annotPreds, List.mem_cons, List.not_mem_nil, or_false] at hP
  rcases hP with rfl | rfl | rfl | rfl | rfl | rfl | rfl | rfl | rfl | rfl | rfl | rfl | rfl <;>
    exact fun a gs => rfl

theorem countL_single_pos (P : Node → Bool) (n : Node) (h : P n = true) :
    0 < countL P (.cons n .nil) := by
  cases n <;> simp [countL, h]

theorem annotSteps_shape (pt : String) (seo : CategoryInfo) (f : String) :
    ∀ s ∈ annotSteps pt seo f,
      ∃ n : Node,
        (∀ Q cs, countL Q (s.2 cs) = countL Q cs + countL Q (.cons n .nil)) ∧
        s.1 n = true := by
  intro s hs
  simp only [annotSteps, og_tags, twitter_tags, List.map_cons, List.map_nil,
    List.cons_append, List.nil_append, List.mem_cons, List.not_mem_nil, or_false] at hs
  rcases hs with rfl | rfl | rfl | rfl | rfl | rfl | rfl | rfl | rfl | rfl | rfl | rfl | rfl
  · exact ⟨metaNameTag "description" seo.description,
      fun Q cs => by rw [countL_pyInsert]; omega,
      by simp [tagAttrP, metaNameTag, attrLookup, List.find?]⟩
  · exact ⟨metaNameTag "keywords" seo.keywords,
      fun Q cs => by rw [countL_pyInsert]; omega,
      by simp [tagAttrP, metaNameTag, attrLookup, List.find?]⟩
  · exact ⟨metaPropTag "og:title" pt,
      fun Q cs => by rw [countL_nlAppend], 
      by simp [tagAttrP, metaPropTag, attrLookup, List.find?]⟩
  · exact ⟨metaPropTag "og:description" seo.description,
      fun Q cs => by rw [countL_nlAppend],
      by simp [tagAttrP, metaPropTag, attrLookup, List.find?]⟩
  · exact ⟨metaPropTag "og:type" "article",
      fun Q cs => by rw [countL_nlAppend],
      by simp [tagAttrP, metaPropTag, attrLookup, List.find?]⟩
  · exact ⟨metaPropTag "og:url" ("https://sgkandale.github.io/" ++ f),
      fun Q cs => by rw [countL_nlAppend],
      by simp [tagAttrP, metaPropTag, attrLookup, List.find?]⟩
  · exact ⟨metaPropTag "og:site_name" "AlgoViz Hub",
      fun Q cs => by rw [countL_nlAppend],
      by simp [tagAttrP, metaPropTag, attrLookup, List.find?]⟩
  · exact ⟨metaNameTag "twitter:card" "summary",
      fun Q cs => by rw [countL_nlAppend],
      by simp [tagAttrP, metaNameTag, attrLookup, List.find?]⟩
  · exact ⟨metaNameTag "twitter:title" pt,
      fun Q cs => by rw [countL_nlAppend],
      by simp [tagAttrP, metaNameTag, attrLookup, List.find?]⟩
  · exact ⟨metaNameTag "twitter:description" seo.description,
      fun Q cs => by rw [countL_nlAppend],
      by simp [tagAttrP, metaNameTag, attrLookup, List.find?]⟩
  · exact ⟨metaNameTag "twitter:site" "@sgkandale",
      fun Q cs => by rw [countL_nlAppend],
      by simp [tagAttrP, metaNameTag, attrLookup, List.find?]⟩
  · exact ⟨canonicalLinkTag f,
      fun Q cs => by rw [countL_nlAppend],
      by simp [tagAttrP, canonicalLinkTag, attrLookup, List.find?]⟩
  · exact ⟨ldJsonScriptTag (generate_structured_data pt seo.description f),
      fun Q cs => by rw [countL_nlAppend],
      by simp [tagAttrP, ldJsonScriptTag, attrLookup, List.find?]⟩

theorem improve_seo_decompose (d : NodeList) (f : String) (d' : NodeList)
    (h : improve_seo d f = .ok d') :
    ∃ dmid,
      runSteps (annotSteps (pageTitle d) (get_category_info f) f) d = .ok dmid ∧
      langStep dmid = .ok d' := by
  simp only [improve_seo] at h
  cases hr : runSteps (annotSteps (pageTitle d) (get_category_info f) f) d with
  | error e => rw [hr] at h; simp at h
  | ok dmid =>
    rw [hr] at h
    exact ⟨dmid, rfl, h⟩

theorem improve_seo_all_present (d d' : NodeList) (f : String)
    (h : improve_seo d f = .ok d') :
    (∀ P ∈ annotPreds, 0 < countL P d') ∧
    (∃ a gs, findL (tagIs "html") d' = some (.elem "html" a gs) ∧
        (attrLookup a "lang").isSome = true) := by
  rcases improve_seo_decompose d f d' h with ⟨dmid, hrun, hlang⟩
  have hblind : ∀ s ∈ annotSteps (pageTitle d) (get_category_info f) f,
      ChildBlind s.1 := by
    intro s hs
    apply annotPreds_blind
    rw [← annotSteps_map_fst (pageTitle d) (get_category_info f) f]
    exact List.mem_map_of_mem Prod.fst hs
  have hself : ∀ s ∈ annotSteps (pageTitle d) (get_category_info f) f,
      ∃ k, 0 < k ∧ ∀ cs, countL s.1 (s.2 cs) = countL s.1 cs + k := by
    intro s hs
    rcases annotSteps_shape (pageTitle d) (get_category_info f) f s hs
      with ⟨n, hadd, hsat⟩
    exact ⟨countL s.1 (.cons n .nil), countL_single_pos s.1 n hsat,
      fun cs => hadd s.1 cs⟩
  have hcross : ∀ s ∈ annotSteps (pageTitle d) (get_category_info f) f,
      ∀ s' ∈ annotSteps (pageTitle d) (get_category_info f) f,
      ∃ k, ∀ cs, countL s'.1 (s.2 cs) = countL s'.1 cs + k := by
    intro s hs s' _
    rcases annotSteps_shape (pageTitle d) (get_category_info f) f s hs
      with ⟨n, hadd, _⟩
    exact ⟨countL s'.1 (.cons n .nil), fun cs => hadd s'.1 cs⟩
  have hpos := runSteps_estab _ d dmid hblind hself hcross hrun
  constructor
  · intro P hP
    rw [← annotSteps_map_fst (pageTitle d) (get_category_info f) f] at hP
    rcases List.mem_map.mp hP with ⟨s, hs, hfst⟩
    have := hpos s hs
    rw [hfst] at this
    have hlangc := langStep_count P (annotPreds_blind P
        (by rw [← annotSteps_map_fst (pageTitle d) (get_category_info f) f]
            exact hP))
      (annotPreds_nohtml P
        (by rw [← annotSteps_map_fst (pageTitle d) (get_category_info f) f]
            exact hP))
      dmid d' hlang
    omega
  · exact langStep_establishes dmid d' hlang

/-- Helper for claim C3: a successful annotation is a fixed point of
`improve_seo`, even without assuming a `head` is present. -/
theorem improve_seo_ok_again (d d' : NodeList) (f : String)
    (h : improve_seo d f = .ok d') : improve_seo d' f = .ok d' := by
  rcases improve_seo_all_present d d' f h with ⟨hpos, a, gs, hfound, hlangat⟩
  simp only [improve_seo]
  have hskip : runSteps (annotSteps (pageTitle d') (get_category_info f) f) d'
      = .ok d' := by
    apply runSteps_skip
    intro s hs
    have hP : s.1 ∈ annotPreds := by
      rw [← annotSteps_map_fst (pageTitle d') (get_category_info f) f]
      exact List.mem_map_of_mem Prod.fst hs
    exact (findL_isSome_iff s.1 d').mpr (hpos s.1 hP)
  rw [hskip]
  exact langStep_of_found d' "html" a gs hfound hlangat

theorem annotSteps_neutral_or_self (pt : String) (seo : CategoryInfo) (f : String) :
    ∀ P ∈ annotPreds, ∀ s ∈ annotSteps pt seo f,
      (∀ cs, countL P (s.2 cs) = countL P cs) ∨ s.1 = P := by
  intro P hP s hs
  simp only [annotPreds, List.mem_cons, List.not_mem_nil, or_false] at hP
  simp only [annotSteps, og_tags, twitter_tags, List.map_cons, List.map_nil,
    List.cons_append, List.nil_append, List.mem_cons, List.not_mem_nil, or_false] at hs
  rcases hP with rfl | rfl | rfl | rfl | rfl | rfl | rfl | rfl | rfl | rfl | rfl | rfl | rfl <;>
  rcases hs with rfl | rfl | rfl | rfl | rfl | rfl | rfl | rfl | rfl | rfl | rfl | rfl | rfl <;>
  first
    | exact Or.inr rfl
    | (refine Or.inl fun cs => ?_
       rw [countL_pyInsert]
       simp [countL, tagAttrP, metaNameTag, metaPropTag, canonicalLinkTag,
         ldJsonScriptTag, attrLookup, List.find?])
    | (refine Or.inl fun cs => ?_
       rw [countL_nlAppend]
       simp [countL, tagAttrP, metaNameTag, metaPropTag, canonicalLinkTag,
         ldJsonScriptTag, attrLookup, List.find?])

/-- Claim C10: the presence checks of `improve_seo` search the ENTIRE
document, not only `head`: for every input containing a node matching one
of the thirteen checked selectors anywhere (for instance inside `body`),
the corresponding insertion is suppressed — the number of matching nodes
in the output equals that of the input. -/
theorem improve_seo_suppression (d d' : NodeList) (f : String)
    (h : improve_seo d f = .ok d') :
    ∀ P ∈ annotPreds, (findL P d).isSome = true → countL P d' = countL P d := by
  rcases improve_seo_decompose d f d' h with ⟨dmid, hrun, hlang⟩
  intro P hP hfind
  have hpos := countL_pos_of_findL_isSome P d hfind
  have hmid := runSteps_count_exact P (annotPreds_blind P hP) _ d dmid hpos
    (annotSteps_neutral_or_self (pageTitle d) (get_category_info f) f P hP) hrun
  have hfin := langStep_count P (annotPreds_blind P hP) (annotPreds_nohtml P hP)
    dmid d' hlang
  omega

/-- Engine for claim C7: when the JSON-LD script check fails on the input,
the output holds exactly one `application/ld+json` script, namely the one
generated from the page title, the resolved description and the filename. -/
theorem improve_seo_script (d d' : NodeList) (f : String)
    (h : improve_seo d f = .ok d')
    (hnone : findL (tagAttrP "script" "type" "application/ld+json") d = none) :
    countL (tagAttrP "script" "type" "application/ld+json") d' = 1 ∧
    findL (tagAttrP "script" "type" "application/ld+json") d' =
      some (ldJsonScriptTag (generate_structured_data (pageTitle d)
        (get_category_info f).description f)) := by
  rcases improve_seo_decompose d f d' h with ⟨dmid, hrun, hlang⟩
  have hsplit : annotSteps (pageTitle d) (get_category_info f) f =
    ([ (tagAttrP "meta" "name" "description",
          pyInsert 0 (metaNameTag "description" (get_category_info f).description)),
       (tagAttrP "meta" "name" "keywords",
          pyInsert 1 (metaNameTag "keywords" (get_category_info f).keywords)) ]
     ++ (og_tags (pageTitle d) (get_category_info f) f).map
          (fun pc => (tagAttrP "meta" "property" pc.1,
                      fun cs => nlAppend cs (.cons (metaPropTag pc.1 pc.2) .nil)))
     ++ (twitter_tags (pageTitle d) (get_category_info f)).map
          (fun pc => (tagAttrP "meta" "name" pc.1,
                      fun cs => nlAppend cs (.cons (metaNameTag pc.1 pc.2) .nil)))
     ++ [ (tagAttrP "link" "rel" "canonical",
            fun cs => nlAppend cs (.cons (canonicalLinkTag f) .nil)) ])
    ++ [ (tagAttrP "script" "type" "application/ld+json",
          fun cs => nlAppend cs (.cons (ldJsonScriptTag
            (generate_structured_data (pageTitle d)
              (get_category_info f).description f)) .nil)) ] := rfl
  rw [hsplit, runSteps_append] at hrun
  set scriptP := tagAttrP "script" "type" "application/ld+json" with hscriptP
  cases hfront : runSteps
      ([ (tagAttrP "meta" "name" "description",
            pyInsert 0 (metaNameTag "description" (get_category_info f).description)),
         (tagAttrP "meta" "name" "keywords",
            pyInsert 1 (metaNameTag "keywords" (get_category_info f).keywords)) ]
       ++ (og_tags (pageTitle d) (get_category_info f) f).map
            (fun pc => (tagAttrP "meta" "property" pc.1,
                        fun cs => nlAppend cs (.cons (metaPropTag pc.1 pc.2) .nil)))
       ++ (twitter_tags (pageTitle d) (get_category_info f)).map
            (fun pc => (tagAttrP "meta" "name" pc.1,
                        fun cs => nlAppend cs (.cons (metaNameTag pc.1 pc.2) .nil)))
       ++ [ (tagAttrP "link" "rel" "canonical",
              fun cs => nlAppend cs (.cons (canonicalLinkTag f) .nil)) ]) d with
  | error e => rw [hfront] at hrun; simp at hrun
  | ok m =>
    rw [hfront] at hrun
    have hblindS : ChildBlind scriptP := fun t a gs gs' => rfl
    have hnhS : NoHtmlMatch scriptP := fun a gs => rfl
    have hzero : countL scriptP d = 0 := by
      by_contra hc
      have := (findL_isSome_iff scriptP d).mpr (by omega)
      rw [hnone] at this
      simp at this
    have hm0 : countL scriptP m = 0 := by
      have := runSteps_count_neutral scriptP hblindS _ d m ?_ hfront
      · omega
      · intro s hs
        simp only [og_tags, twitter_tags, List.map_cons, List.map_nil,
          List.cons_append, List.nil_append, List.mem_cons, List.not_mem_nil,
          or_false] at hs
        rcases hs with rfl | rfl | rfl | rfl | rfl | rfl | rfl | rfl | rfl | rfl | rfl | rfl <;>
        intro cs <;>
        first
          | (rw [countL_pyInsert]
             simp [hscriptP, countL, tagAttrP, metaNameTag, metaPropTag,
               canonicalLinkTag, attrLookup, List.find?])
          | (rw [countL_nlAppend]
             simp [hscriptP, countL, tagAttrP, metaNameTag, metaPropTag,
               canonicalLinkTag, attrLookup, List.find?])
    have hfm : findL scriptP m = none := findL_eq_none_of_countL_zero scriptP m hm0
    simp only [runSteps] at hrun
    cases hci : condInsert scriptP
        (fun cs => nlAppend cs (.cons (ldJsonScriptTag
          (generate_structured_data (pageTitle d)
            (get_category_info f).description f)) .nil)) m with
    | error e => rw [hci] at hrun; simp at hrun
    | ok dmid2 =>
      rw [hci] at hrun
      injection hrun with hrun
      subst hrun
      rcases condInsert_ok_cases _ _ m dmid2 hci with ⟨hf, rfl⟩ | ⟨_, hins⟩
      · rw [hfm] at hf; simp at hf
      · have hsat : scriptP (ldJsonScriptTag (generate_structured_data
            (pageTitle d) (get_category_info f).description f)) = true := by
          simp [hscriptP, tagAttrP, ldJsonScriptTag, attrLookup, List.find?]
        have hfind2 := goInsert_find_new scriptP hblindS _ hsat m dmid2 hm0 hins
        have hcount2 : countL scriptP dmid2 = 1 := by
          have := goInsert_count scriptP hblindS _ 1 ?_ m dmid2 hins
          · omega
          · intro cs
            rw [countL_nlAppend]
            simp [hscriptP, countL, tagAttrP, ldJsonScriptTag, attrLookup, List.find?]
        constructor
        · have := langStep_count scriptP hblindS hnhS dmid2 d' hlang
          omega
        · apply langStep_find_result scriptP hblindS hnhS dmid2 d' _ hlang hfind2
          simp [countL, tagIs, ldJsonScriptTag]

/-! ## Headless documents (claim C5) -/

theorem improve_seo_headless_iff (d : NodeList) (f : String)
    (hnh : hasHead d = false) :
    isOkE (improve_seo d f) = true ↔
      (allChecksPresent d = true ∧ hasHtml d = true) := by
  constructor
  · intro hok
    cases him : improve_seo d f with
    | error e => rw [him] at hok; simp [isOkE] at hok
    | ok d' =>
      rcases improve_seo_decompose d f d' him with ⟨dmid, hrun, hlang⟩
      rcases runSteps_headless _ d dmid hnh hrun with ⟨hdm, hall⟩
      rw [hdm] at hlang
      constructor
      · rw [allChecksPresent, List.all_eq_true]
        intro P hP
        rw [← annotSteps_map_fst (pageTitle d) (get_category_info f) f] at hP
        rcases List.mem_map.mp hP with ⟨s, hs, hfst⟩
        rw [← hfst]
        exact hall s hs
      · rcases langStep_ok_cases d d' hlang with ⟨n, hf, _, _⟩ | ⟨n, hf, _, _⟩ <;>
          simp [hasHtml, hf]
  · rintro ⟨hall, hhtml⟩
    simp only [improve_seo]
    have hskip : runSteps (annotSteps (pageTitle d) (get_category_info f) f) d
        = .ok d := by
      apply runSteps_skip
      intro s hs
      rw [allChecksPresent, List.all_eq_true] at hall
      apply hall
      rw [← annotSteps_map_fst (pageTitle d) (get_category_info f) f]
      exact List.mem_map_of_mem Prod.fst hs
    rw [hskip]
    rcases Option.isSome_iff_exists.mp hhtml with ⟨n, hn⟩
    simp only [langStep, hn]
    by_cases hl : hasAttr n "lang" = true
    · simp [hl, isOkE]
    · have hl' : hasAttr n "lang" = false := by simpa using hl
      simp [hl', isOkE]

/-! ## Insertion-only shape of the annotator (claim C9) -/

theorem toListNL_pyInsert_sublist (x : Node) :
    ∀ (i : Nat) (l : NodeList),
      (toListNL l).Sublist (toListNL (pyInsert i x l)) := by
  intro i l
  induction l using nodeListRec generalizing i with
  | hnil => simp only [pyInsert]; simp [toListNL]
  | htext s cs ih =>
    cases i with
    | zero => exact (List.Sublist.refl _).cons x
    | succ m => exact (ih m).cons₂ (.text s)
  | helem t a gs cs ihg ihc =>
    cases i with
    | zero => exact (List.Sublist.refl _).cons x
    | succ m => exact (ihc m).cons₂ (.elem t a gs)

theorem toListNL_nlAppend_single_sublist (n : Node) :
    ∀ l : NodeList, (toListNL l).Sublist (toListNL (nlAppend l (.cons n .nil))) := by
  refine nodeListRec ?_ ?_ ?_
  · simp [toListNL, nlAppend]
  · intro s cs ih
    exact ih.cons₂ (.text s)
  · intro t a gs cs ihg ihc
    exact ihc.cons₂ (.elem t a gs)

theorem annotSteps_sublist (pt : String) (seo : CategoryInfo) (f : String) :
    ∀ s ∈ annotSteps pt seo f, ∀ cs,
      (toListNL cs).Sublist (toListNL (s.2 cs)) := by
  intro s hs cs
  simp only [annotSteps, og_tags, twitter_tags, List.map_cons, List.map_nil,
    List.cons_append, List.nil_append, List.mem_cons, List.not_mem_nil, or_false] at hs
  rcases hs with rfl | rfl | rfl | rfl | rfl | rfl | rfl | rfl | rfl | rfl | rfl | rfl | rfl <;>
    first
      | exact toListNL_pyInsert_sublist _ _ cs
      | exact toListNL_nlAppend_single_sublist _ cs

/-- Claim C9 (amended): `improve_seo` only inserts nodes and only edits the
`lang` attribute of the FIRST `html` element in document order (the claim
said "root"; see the counterexample). Every successful output is the input
with the first `head` element's child list replaced by a superlist of it
(the original children kept in order and unchanged — `List.Sublist`),
followed by an optional pass that adds `lang="en"` to the first `html`
element exactly when it lacks a `lang` attribute. -/
theorem improve_seo_shape (d d' : NodeList) (f : String)
    (h : improve_seo d f = .ok d') :
    ∃ (g : NodeList → NodeList) (b : Bool),
      (∀ cs, (toListNL cs).Sublist (toListNL (g cs))) ∧
      d' = applyLang b ((goInsert g d).getD d) ∧
      (b = true → ∃ a gs,
        findL (tagIs "html") ((goInsert g d).getD d) = some (.elem "html" a gs) ∧
        attrLookup a "lang" = none) := by
  rcases improve_seo_decompose d f d' h with ⟨dmid, hrun, hlang⟩
  rcases runSteps_shape _ d dmid
      (annotSteps_sublist (pageTitle d) (get_category_info f) f) hrun
    with ⟨g, hgsub, hgd⟩
  rcases langStep_ok_cases dmid d' hlang with ⟨n, hf, hl, rfl⟩ | ⟨n, hf, hl, hd⟩
  · exact ⟨g, false, hgsub, by simpa [applyLang] using hgd, by simp⟩
  · refine ⟨g, true, hgsub, ?_, ?_⟩
    · rw [hd, hgd]
      simp [applyLang]
    · intro _
      have hsat := findL_sat (tagIs "html") dmid n hf
      cases n with
      | text s => simp [tagIs] at hsat
      | elem t a gs =>
        have hth : t = "html" := by simpa [tagIs] using hsat
        subst hth
        refine ⟨a, gs, by rw [← hgd]; exact hf, ?_⟩
        rw [hasAttr] at hl
        cases hk : attrLookup a "lang"
        · rfl
        · rw [hk] at hl; simp at hl

/-! ## Category resolver characterisation (claim C4) -/

/-- Claim C4: for every filename, `get_category_info` lower-cases it, scans
the fixed table in declared order, and returns the `{keywords,
description}` pair of the FIRST entry whose key occurs as a substring of
the lower-cased name (earliest declared entry wins when several match),
and the default pair when no key matches. Totality (never raises, always
returns a value) holds by construction: it is a total Lean function. -/
theorem get_category_info_spec (f : String) :
    (∃ i : Fin ALGORITHM_CATEGORIES.length,
        SubstrOf (ALGORITHM_CATEGORIES.get i).1 (str_lower f) ∧
        (∀ j : Fin ALGORITHM_CATEGORIES.length, j < i →
          ¬ SubstrOf (ALGORITHM_CATEGORIES.get j).1 (str_lower f)) ∧
        get_category_info f = (ALGORITHM_CATEGORIES.get i).2)
    ∨ ((∀ e ∈ ALGORITHM_CATEGORIES, ¬ SubstrOf e.1 (str_lower f)) ∧
        get_category_info f = DEFAULT_CATEGORY) := by
  rcases find?_first_characterisation
      (fun e => strContains (str_lower f) e.1) ALGORITHM_CATEGORIES
    with ⟨i, hpi, hmin, hfind⟩ | ⟨hall, hfind⟩
  · left
    refine ⟨i, (strContains_iff _ _).mp hpi, ?_, ?_⟩
    · intro j hj hsub
      have hfalse := hmin j hj
      have htrue := (strContains_iff _ _).mpr hsub
      rw [hfalse] at htrue
      exact Bool.noConfusion htrue
    · simp only [get_category_info]
      rw [hfind]
  · right
    refine ⟨?_, ?_⟩
    · intro e he hsub
      exact absurd ((strContains_iff _ _).mpr hsub) (by simp [hall e he])
    · simp only [get_category_info]
      rw [hfind]

/-! ## File-processor lemmas (claims C6 and C8) -/

theorem fileAfter_id_of_error (b : Bool) (e : FileEntry)
    (herr : e.readable = false ∨ b = false ∨
      ∃ m, improve_seo e.content e.name = .error m) :
    fileAfter b e = e := by
  have hres : ∃ m, fileResult b e = .error m := by
    rcases herr with hr | hb | ⟨m, hm⟩
    · exact ⟨"Permission denied", by simp [fileResult, hr]⟩
    · cases hread : e.readable
      · exact ⟨"Permission denied", by simp [fileResult, hread]⟩
      · exact ⟨"No such file or directory", by simp [fileResult, hread, hb]⟩
    · cases hread : e.readable
      · exact ⟨"Permission denied", by simp [fileResult, hread]⟩
      · cases hb : b
        · exact ⟨"No such file or directory", by simp [fileResult, hread, hb]⟩
        · exact ⟨m, by simp [fileResult, hread, hb, hm]⟩
  rcases hres with ⟨m, hm⟩
  rw [fileAfter]
  by_cases hh : strEndsWith e.name ".html" = true
  · simp [hh, hm]
  · have hh' : strEndsWith e.name ".html" = false := by simpa using hh
    simp [hh']

/-- Claim C6 (amended): every per-file error is caught at the file-processor
boundary and logged with the filename and the message, no failure aborts
the run (the output has exactly one success/failure line per `.html`
file, in order, between the start line and the completion line) — but
the final line is the fixed completion message, which carries no summary
count (the file count appears only in the START line; see the
counterexample). -/
theorem process_html_files_log (st : FSState) :
    ((process_html_files st).2.2).length =
      (st.files.filter (fun e => strEndsWith e.name ".html")).length + 2 ∧
    ((process_html_files st).2.2).head? =
      some ("Processing " ++
        toString (st.files.filter (fun e => strEndsWith e.name ".html")).length ++
        " HTML files...") ∧
    ((process_html_files st).2.2).getLast? =
      some "SEO improvement process completed!" ∧
    (∀ (i : Nat) (hi : i < (st.files.filter
          (fun e => strEndsWith e.name ".html")).length),
      ((process_html_files st).2.2)[i + 1]? =
        some (fileLine st.backupDirExists
          ((st.files.filter (fun e => strEndsWith e.name ".html")).get ⟨i, hi⟩)) ∧
      (fileLine st.backupDirExists
          ((st.files.filter (fun e => strEndsWith e.name ".html")).get ⟨i, hi⟩) =
        "✓ Processed " ++
          ((st.files.filter (fun e => strEndsWith e.name ".html")).get ⟨i, hi⟩).name ∨
       ∃ m, fileResult st.backupDirExists
          ((st.files.filter (fun e => strEndsWith e.name ".html")).get ⟨i, hi⟩) =
            .error m ∧
         fileLine st.backupDirExists
            ((st.files.filter (fun e => strEndsWith e.name ".html")).get ⟨i, hi⟩) =
          "✗ Error processing " ++
            ((st.files.filter (fun e => strEndsWith e.name ".html")).get ⟨i, hi⟩).name
            ++ ": " ++ m)) := by
  refine ⟨?_, ?_, ?_, ?_⟩
  · simp [process_html_files]
  · simp [process_html_files]
  · show (_ :: (_ ++ [_])).getLast? = _
    rw [← List.cons_append, List.getLast?_concat]
  · intro i hi
    constructor
    · show ((_ : String) :: (_ ++ [_]))[i + 1]? = _
      rw [List.getElem?_cons_succ, List.getElem?_append_left (by simpa using hi),
        List.getElem?_map, List.getElem?_eq_getElem hi]
      rfl
    · cases hres : fileResult st.backupDirExists
          ((st.files.filter (fun e => strEndsWith e.name ".html")).get ⟨i, hi⟩) with
      | ok c => exact Or.inl (by simp only [fileLine, hres])
      | error m => exact Or.inr ⟨m, rfl, by simp only [fileLine, hres]⟩

/-! # Claim theorems -/

/-- Claim C1 counterexample: on the spec's end-to-end input
`<html><head><title>Merge Sort</title></head><body></body></html>` with
filename `merge_sort.html`, the description meta produced by `improve_seo`
carries the DEFAULT category description ("Interactive algorithm
visualization platform for learning computer science concepts"), not the
sorting-category description claimed ("Learn about sorting algorithms and
their implementations with interactive visualizations"): no key of the
table ("sorting", ...) is a substring of "merge_sort.html". -/
theorem c1_counterexample :
    improve_seo mergeDoc ("merge_sort.html") = .ok mergeOut ∧
    findL (tagAttrP ("meta") ("name") ("description")) mergeOut =
      some (metaNameTag ("description")
        ("Interactive algorithm visualization platform for learning computer science concepts")) ∧
    ("Interactive algorithm visualization platform for learning computer science concepts"
      ≠ "Learn about sorting algorithms and their implementations with interactive visualizations") :=
  ⟨rfl, rfl, by decide⟩

/-- Claim C1 (amended): for input file `merge_sort.html` with content
`<html><head><title>Merge Sort</title></head><body></body></html>`,
`improve_seo` produces exactly `mergeOut`: head holding, in order, the
description meta and keywords meta with the DEFAULT category description
and keywords, the original title, the 5 Open Graph metas, the 4 Twitter
metas, one canonical link with href
`https://sgkandale.github.io/merge_sort.html`, and one JSON-LD script,
with `lang="en"` on the html root. Only the resolved category differs from
the claim (default, not sorting). -/
theorem c1_end_to_end :
    improve_seo mergeDoc ("merge_sort.html") = .ok mergeOut := rfl

/-- Claim C2 counterexample: `get_category_info "bubble_sort.html"` returns
the default description, not the sorting one ("sorting" is not a substring
of "bubble_sort.html"); likewise `raft_consensus.html` does not resolve to
the distributed category ("distributed" is not a substring of it). -/
theorem c2_counterexample :
    (get_category_info ("bubble_sort.html")).description =
      ("Interactive algorithm visualization platform for learning computer science concepts") ∧
    ((get_category_info ("bubble_sort.html")).description ≠
      ("Learn about sorting algorithms and their implementations with interactive visualizations")) ∧
    ((get_category_info ("raft_consensus.html")).description ≠
      ("Understand distributed consensus algorithms used in distributed systems and databases")) :=
  ⟨rfl, by decide, by decide⟩

/-- Claim C2 (amended): the category resolver returns the DEFAULT category
entry for all three inputs named by the spec — "bubble_sort.html",
"raft_consensus.html" and "unknown_topic.html" — since no table key is a
substring of any of them (only the third matches the claim). -/
theorem c2_resolver_values :
    get_category_info ("bubble_sort.html") = DEFAULT_CATEGORY ∧
    get_category_info ("raft_consensus.html") = DEFAULT_CATEGORY ∧
    get_category_info ("unknown_topic.html") = DEFAULT_CATEGORY :=
  ⟨rfl, rfl, rfl⟩

/-- Claim C3: `improve_seo` is idempotent after the first application: for
every document with a `head` element, annotating the output of a
successful annotation returns that output unchanged (every presence check
now succeeds and the `lang` attribute is present, so the second pass
inserts nothing). -/
theorem c3_idempotent (d d' : NodeList) (f : String)
    (_hhead : hasHead d = true) (h : improve_seo d f = .ok d') :
    improve_seo d' f = .ok d' :=
  improve_seo_ok_again d d' f h

/-- Witness for claim C3 at the concrete merge-sort document. -/
theorem c3_idempotent_witness :
    hasHead mergeDoc = true ∧
    improve_seo mergeDoc ("merge_sort.html") = .ok mergeOut ∧
    improve_seo mergeOut ("merge_sort.html") = .ok mergeOut :=
  ⟨rfl, rfl, c3_idempotent mergeDoc mergeOut ("merge_sort.html") rfl rfl⟩

/-- Witness for claim C4 at the concrete input "unknown_topic.html". -/
theorem c4_resolver_spec_witness :
    (∃ i : Fin ALGORITHM_CATEGORIES.length,
        SubstrOf (ALGORITHM_CATEGORIES.get i).1 (str_lower ("unknown_topic.html")) ∧
        (∀ j : Fin ALGORITHM_CATEGORIES.length, j < i →
          ¬ SubstrOf (ALGORITHM_CATEGORIES.get j).1 (str_lower ("unknown_topic.html"))) ∧
        get_category_info ("unknown_topic.html") = (ALGORITHM_CATEGORIES.get i).2)
    ∨ ((∀ e ∈ ALGORITHM_CATEGORIES,
          ¬ SubstrOf e.1 (str_lower ("unknown_topic.html"))) ∧
        get_category_info ("unknown_topic.html") = DEFAULT_CATEGORY) :=
  get_category_info_spec ("unknown_topic.html")

/-- Claim C5 counterexample: a document with NO `head` element whose `body`
already carries all checked tags (and whose `html` root has `lang`) is
returned silently and unchanged by `improve_seo` — it does not raise. -/
theorem c5_counterexample :
    hasHead headlessFullDoc = false ∧
    improve_seo headlessFullDoc ("x.html") = .ok headlessFullDoc :=
  ⟨rfl, rfl⟩

/-- Claim C5 (amended): for every input document lacking a `head` element,
`improve_seo` raises exactly when some checked tag is missing (so a head
insertion is attempted on `soup.head = None`) or when there is no `html`
element for the `lang` step; when all thirteen checks succeed somewhere in
the document and an `html` element exists, it returns silently. -/
theorem c5_headless (d : NodeList) (f : String) (hnh : hasHead d = false) :
    isOkE (improve_seo d f) = true ↔
      (allChecksPresent d = true ∧ hasHtml d = true) :=
  improve_seo_headless_iff d f hnh

/-- Witness for claim C5 at a headless document missing every tag. -/
theorem c5_headless_witness :
    hasHead headlessEmptyDoc = false ∧
    (isOkE (improve_seo headlessEmptyDoc ("a.html")) = true ↔
      (allChecksPresent headlessEmptyDoc = true ∧ hasHtml headlessEmptyDoc = true)) :=
  ⟨rfl, c5_headless headlessEmptyDoc ("a.html") rfl⟩

/-- Claim C6 counterexample: in a run with one success and one failure the
final line is the fixed string "SEO improvement process completed!",
which contains no digits — there is no final summary COUNT (the count
appears only in the start line). -/
theorem c6_counterexample :
    ((process_html_files mixedState).2.2).getLast? =
      some ("SEO improvement process completed!") ∧
    (∀ c ∈ ("SEO improvement process completed!").data, c.isDigit = false) ∧
    ((process_html_files mixedState).2.2).contains ("✓ Processed a.html") = true ∧
    ((process_html_files mixedState).2.2).contains
      ("✗ Error processing b.html: AttributeError: NoneType object has no insert")
      = true :=
  ⟨rfl, by decide, rfl, rfl⟩

/-- Witness for claim C6 at the concrete mixed directory state. -/
theorem c6_log_witness :
    ((process_html_files mixedState).2.2)[0 + 1]? =
      some (fileLine mixedState.backupDirExists
        ((mixedState.files.filter (fun e => strEndsWith e.name ".html")).get
          ⟨0, by decide⟩)) :=
  ((process_html_files_log mixedState).2.2.2 0 (by decide)).1

/-- Claim C7: whenever `improve_seo` inserts the JSON-LD script (the check
found none in the input), the output holds exactly one
`application/ld+json` script; its text is the `json.dumps` serialisation
of the structured-data object (hence valid JSON), which carries the keys
`@context`, `@type`, `headline`, `description`, `author`, `publisher` and
`mainEntityOfPage`, with `headline` the page title, `description` the
resolved description and `mainEntityOfPage.@id` equal to
`https://sgkandale.github.io/{filename}`. -/
theorem c7_json_ld (d d' : NodeList) (f : String)
    (h : improve_seo d f = .ok d')
    (hnone : findL (tagAttrP ("script") ("type") ("application/ld+json")) d = none) :
    countL (tagAttrP ("script") ("type") ("application/ld+json")) d' = 1 ∧
    findL (tagAttrP ("script") ("type") ("application/ld+json")) d' =
      some (ldJsonScriptTag (generate_structured_data (pageTitle d)
        (get_category_info f).description f)) ∧
    generate_structured_data (pageTitle d) (get_category_info f).description f =
      json_dumps_indent2 (structured_data_json (pageTitle d)
        (get_category_info f).description f) ∧
    ((structured_data_json (pageTitle d) (get_category_info f).description f).getKey
      ("@context")).isSome = true ∧
    ((structured_data_json (pageTitle d) (get_category_info f).description f).getKey
      ("@type")).isSome = true ∧
    ((structured_data_json (pageTitle d) (get_category_info f).description f).getKey
      ("author")).isSome = true ∧
    ((structured_data_json (pageTitle d) (get_category_info f).description f).getKey
      ("publisher")).isSome = true ∧
    (structured_data_json (pageTitle d) (get_category_info f).description f).getKey
      ("headline") = some (.str (pageTitle d)) ∧
    (structured_data_json (pageTitle d) (get_category_info f).description f).getKey
      ("description") = some (.str (get_category_info f).description) ∧
    (∃ mep, (structured_data_json (pageTitle d)
        (get_category_info f).description f).getKey ("mainEntityOfPage") = some mep ∧
      mep.getKey ("@id") = some (.str ("https://sgkandale.github.io/" ++ f))) := by
  rcases improve_seo_script d d' f h hnone with ⟨hcount, hfind⟩
  exact ⟨hcount, hfind, rfl, rfl, rfl, rfl, rfl, rfl, rfl, ⟨_, rfl, rfl⟩⟩

/-- Witness for claim C7 at the concrete merge-sort document. -/
theorem c7_json_ld_witness :
    improve_seo mergeDoc ("merge_sort.html") = .ok mergeOut ∧
    findL (tagAttrP ("script") ("type") ("application/ld+json")) mergeDoc = none ∧
    countL (tagAttrP ("script") ("type") ("application/ld+json")) mergeOut = 1 :=
  ⟨rfl, rfl, (c7_json_ld mergeDoc mergeOut ("merge_sort.html") rfl rfl).1⟩

/-- Claim C8: if the read fails, the backup write fails (backup directory
absent) or `improve_seo` raises for a file, that file's on-disk content is
unchanged after the run — the original path is overwritten only after the
whole per-file pipeline succeeds. -/
theorem c8_no_overwrite_on_error (st : FSState) (i : Nat)
    (hi : i < st.files.length)
    (herr : (st.files.get ⟨i, hi⟩).readable = false ∨
      st.backupDirExists = false ∨
      ∃ m, improve_seo (st.files.get ⟨i, hi⟩).content (st.files.get ⟨i, hi⟩).name
        = .error m) :
    ((process_html_files st).1.files)[i]? = some (st.files.get ⟨i, hi⟩) := by
  show (st.files.map (fileAfter st.backupDirExists))[i]? = _
  rw [List.getElem?_map, List.getElem?_eq_getElem hi]
  simp only [Option.map_some']
  exact congrArg some (fileAfter_id_of_error st.backupDirExists _ herr)

/-- Witness for claim C8: the headless page `b.html` in the mixed state
fails annotation and keeps its original content. -/
theorem c8_no_overwrite_witness :
    (∃ m, improve_seo (mixedState.files.get ⟨1, by decide⟩).content
        (mixedState.files.get ⟨1, by decide⟩).name = .error m) ∧
    ((process_html_files mixedState).1.files)[1]? =
      some (mixedState.files.get ⟨1, by decide⟩) :=
  ⟨⟨"AttributeError: NoneType object has no insert", rfl⟩,
   c8_no_overwrite_on_error mixedState 1 (by decide)
     (Or.inr (Or.inr ⟨"AttributeError: NoneType object has no insert", rfl⟩))⟩

/-- Claim C9 counterexample: on a document whose only `html` element is
nested below a `div` root (no root `html` element exists), `improve_seo`
still modifies that non-root element's attributes, adding `lang="en"` —
so "the only attribute modification is adding lang to the ROOT html" is
false; the code targets the FIRST `html` element in document order. -/
theorem c9_counterexample :
    improve_seo nestedHtmlDoc ("x.html") = .ok nestedHtmlOut ∧
    rootTags nestedHtmlDoc = ["div"] ∧
    htmlAttrsOf nestedHtmlDoc = some [] ∧
    htmlAttrsOf nestedHtmlOut = some [("lang", "en")] :=
  ⟨rfl, rfl, rfl, rfl⟩

/-- Witness for claim C9 at the nested-html document. -/
theorem c9_shape_witness :
    improve_seo nestedHtmlDoc ("x.html") = .ok nestedHtmlOut ∧
    (∃ (g : NodeList → NodeList) (b : Bool),
      (∀ cs, (toListNL cs).Sublist (toListNL (g cs))) ∧
      nestedHtmlOut = applyLang b ((goInsert g nestedHtmlDoc).getD nestedHtmlDoc) ∧
      (b = true → ∃ a gs,
        findL (tagIs ("html")) ((goInsert g nestedHtmlDoc).getD nestedHtmlDoc) =
          some (.elem ("html") a gs) ∧
        attrLookup a ("lang") = none)) :=
  ⟨rfl, improve_seo_shape nestedHtmlDoc nestedHtmlOut ("x.html") rfl⟩

/-- Witness for claim C10 at a document whose description meta sits inside
`body` while the `head` is empty: the description insertion is suppressed
(count unchanged) even though the match is outside `head`. -/
theorem c10_whole_document_witness :
    improve_seo bodyDescDoc ("x.html") = .ok bodyDescOut ∧
    (findL (tagAttrP ("meta") ("name") ("description")) bodyDescDoc).isSome = true ∧
    countL (tagAttrP ("meta") ("name") ("description")) bodyDescOut =
      countL (tagAttrP ("meta") ("name") ("description")) bodyDescDoc :=
  ⟨rfl, rfl, improve_seo_suppression bodyDescDoc bodyDescOut ("x.html") rfl
    (tagAttrP ("meta") ("name") ("description")) (List.Mem.head _) rfl⟩
